import Mathlib

/-!
# A verification model of the t3 binary-format engine

This development shallowly embeds the core of the `t3` library
(`number.py`, `pattern.py`, `table.py`) in Lean 4 and proves or refutes
the quantified properties stated in its specification.

Two layers are modelled, following the code:

* a digit-level model `T3V` of `T3Number` — the triple (integer N, digit
  string S, base b), with the distinguished `NULL` value as a separate
  constructor (mirroring the `_NullNumber` singleton subclass);
* a byte-level model of the table/pattern engine, in which data handled
  by tables is a `List Nat` of bytes (tables coerce their input through
  `Hex`, whose indexing, slicing and length are byte-granular; the empty
  list plays the role of the `NULL`/`None` rest).

Python's unbounded recursion (dynamic `Function` patterns may return
arbitrary patterns; bindings recurse through fields) is modelled with an
explicit fuel parameter; running out of fuel is reported distinctly from
the circular-binding error so that no theorem can mistake divergence for
a definite result.
-/

namespace T3

/-! ## Digit-level number model (`number.py`) -/

/-- `DIGITS_PER_BYTE = "xx864443333333332"` indexed by the base:
how many digits of that base make up one byte. -/
def digitsPerByte (b : Nat) : Nat :=
  if b = 2 then 8
  else if b = 3 then 6
  else if b ≤ 6 then 4
  else if b ≤ 15 then 3
  else 2

/-- The `while n>0: n, r = divmod(n, base)` loop of
`T3Number._from_integer`, with an explicit iteration bound (the loop
strictly decreases `n` for any base ≥ 2). -/
def pyDigitsAux (b : Nat) : Nat → Nat → List Nat
  | 0, _ => []
  | fuel + 1, n => if n = 0 then [] else pyDigitsAux b fuel (n / b) ++ [n % b]

/-- `T3Number._from_integer`: the minimal digit string of `n` in base `b`,
most significant digit first; `0` encodes as the single digit `0`. -/
def pyDigits (b n : Nat) : List Nat :=
  if n = 0 then [0] else pyDigitsAux b n n

/-- `int(S, base)`: the integer denoted by a digit string (MSB first). -/
def fromDigits (b : Nat) (s : List Nat) : Nat :=
  s.foldl (fun a d => a * b + d) 0

/-- `str.zfill`: left-pad a digit string with zeros to the given width. -/
def zfill (w : Nat) (s : List Nat) : List Nat :=
  List.replicate (w - s.length) 0 ++ s

/-- A `T3Number` is the pair (digit string S, base b); its integer value
`_int` is determined by the invariant `_int = int(S, base)`, which every
constructor of the class establishes.  `null` models the `_NullNumber`
singleton `NULL` (whose stored state is `_str = "0"`, `_int = 0`,
`base = 2`). -/
inductive T3V where
  | null
  | mk (s : List Nat) (base : Nat)
deriving DecidableEq, Repr

/-- `T3Number.base` (the `_NullNumber` constructor fixes `base = 2`). -/
def t3base : T3V → Nat
  | .null => 2
  | .mk _ b => b

/-- `T3Number._str` (for `NULL` the stored string is `"0"`). -/
def t3str : T3V → List Nat
  | .null => [0]
  | .mk s _ => s

/-- `T3Number._int`, via the invariant `_int = int(_str, base)`. -/
def t3int : T3V → Nat
  | .null => 0
  | .mk s b => fromDigits b s

/-- `len`: generic `T3Number.__len__` is the digit-string length;
`_NullNumber.__len__` returns 0. -/
def t3len : T3V → Nat
  | .null => 0
  | .mk s _ => s.length

/-- Truthiness, `T3Number.__nonzero__`: `self._int != 0` (inherited
unchanged by `_NullNumber`). -/
def t3bool (x : T3V) : Bool :=
  t3int x != 0

/-- `T3Number.__eq__` / `_NullNumber.__eq__` with Python's dispatch:
the left operand's method decides.  `_NullNumber` is equal only to
`_NullNumber` instances; a non-null number compares by `_int`, so a
non-null number whose integer value is 0 compares equal to `NULL`. -/
def t3eq : T3V → T3V → Bool
  | .null, .null => true
  | .null, .mk _ _ => false
  | .mk s b, .null => fromDigits b s == 0
  | .mk s b, .mk s2 b2 => fromDigits b s == fromDigits b2 s2

/-- `T3Number.__iter__` yields one digit at a time as fresh numbers;
`_NullNumber.__iter__` yields the `NULL` value itself once. -/
def t3iter : T3V → List T3V
  | .null => [.null]
  | .mk s b => s.map (fun d => T3V.mk [d] b)

/-- `T3Number._maxfill`: the (base, zero-fill width) used by every
arithmetic/bitwise binary operation.  Equal bases use the maximum of the
two digit-string lengths; otherwise the operand with the larger base
supplies both the base and the width.  (The returned result class is not
modelled: the theorems below concern plain `T3Number` instances.) -/
def maxfill (a b : T3V) : Nat × Nat :=
  if t3base b = t3base a then (t3base a, max (t3str a).length (t3str b).length)
  else if t3base b > t3base a then (t3base b, (t3str b).length)
  else (t3base a, (t3str a).length)

/-- The common shape of `__add__`, `__sub__`, `__mul__`, `__div__`,
`__mod__`, `__lshift__`, `__rshift__`, `__and__`, `__or__`, `__xor__`:
compute on `_int`s, rebuild in the `_maxfill` base, and `zfill` to the
`_maxfill` width. -/
def t3binop (f : Nat → Nat → Nat) (a b : T3V) : T3V :=
  let m := maxfill a b
  T3V.mk (zfill m.2 (pyDigits m.1 (f (t3int a) (t3int b)))) m.1

/-- `__add__`; `_NullNumber.__add__` returns the other operand. -/
def t3add : T3V → T3V → T3V
  | .null, y => y
  | .mk s b, y => t3binop (· + ·) (.mk s b) y

/-- `__sub__`: `max(0, self._int - other._int)` (underflow clamps to 0),
which is exactly truncated subtraction on `Nat`. -/
def t3sub (a b : T3V) : T3V := t3binop (· - ·) a b

/-- `__mul__`; `_NullNumber.__mul__` returns `NULL` itself. -/
def t3mul : T3V → T3V → T3V
  | .null, _ => .null
  | .mk s b, y => t3binop (· * ·) (.mk s b) y

/-- `__div__`: floor division of the `_int`s.  (Python raises
`ZeroDivisionError` on a zero divisor; the theorems below assume a
nonzero divisor, where `Nat` division agrees.) -/
def t3div (a b : T3V) : T3V := t3binop (· / ·) a b

/-- `__mod__` (nonzero divisor assumed, as for `t3div`). -/
def t3mod (a b : T3V) : T3V := t3binop (· % ·) a b

/-- `__lshift__`. -/
def t3shiftl (a b : T3V) : T3V := t3binop (fun x y => x <<< y) a b

/-- `__rshift__`. -/
def t3shiftr (a b : T3V) : T3V := t3binop (fun x y => x >>> y) a b

/-- `__and__`. -/
def t3and (a b : T3V) : T3V := t3binop (fun x y => x &&& y) a b

/-- `__or__`. -/
def t3or (a b : T3V) : T3V := t3binop (fun x y => x ||| y) a b

/-- `__xor__`. -/
def t3xor (a b : T3V) : T3V := t3binop (fun x y => x ^^^ y) a b

/-- `T3Number.__floordiv__`, the concatenation operator.  `NULL` (tested
by identity in the source) is a two-sided unit; equal bases concatenate
the digit strings (the operands' integers are `Nat`s, so the
negative-operand `TypeError` cannot occur); differing bases raise a
`TypeError`, modelled as `none`. -/
def t3floordiv : T3V → T3V → Option T3V
  | x, .null => some x
  | .null, y => some y
  | .mk s b, .mk s2 b2 =>
    if b2 = b then some (T3V.mk (s ++ s2) b) else none

/-- Leading-zero count of a digit string (`_preserve_leading_zeros`'s
scan of `data._str`). -/
def leadZeros : List Nat → Nat
  | [] => 0
  | d :: r => if d = 0 then leadZeros r + 1 else 0

/-- `T3Number.__init__` on a `T3Number` argument (`_from_t3number`
followed by `_preserve_leading_zeros`): same base copies the digit
string; otherwise the integer is re-encoded in the new base and, when
the source has at least one full byte of leading zero digits, the
result is left-padded so that those zero bytes survive, with the total
length rounded up to a multiple of the target's digits-per-byte.  When
the integer value is 0, the padding *replaces* the re-encoded string
instead of prefixing it. -/
def convertT3 (d : T3V) (base : Nat) : T3V :=
  match d with
  | .null => .null
  | .mk s b0 =>
    if b0 = base then T3V.mk s base
    else
      let n0 := fromDigits b0 s
      let s' := pyDigits base n0
      let k := leadZeros s
      let srcDpb := digitsPerByte b0
      if k ≥ srcDpb then
        let tgtDpb := digitsPerByte base
        let p := tgtDpb * (k / srcDpb)
        let r := (s'.length + p) % tgtDpb
        let p' := if r ≠ 0 then p + (tgtDpb - r) else p
        if n0 = 0 then T3V.mk (List.replicate p' 0) base
        else T3V.mk (List.replicate p' 0 ++ s') base
      else T3V.mk s' base

end T3

namespace T3

/-! ## Byte-level table model (`pattern.py`, `table.py`)

Tables coerce the data they match through `Hex` (`T3Table._coerce`),
whose `len`, indexing, slicing and iteration are byte-granular.  Data is
therefore modelled as a `List Nat` of bytes.  The empty list plays the
role both of the `NULL` number (an empty `Hex` slice is `NULL`) and of
the `None` rest produced by `T3PatternAny`; the two are indistinguishable
by every operation the engine applies to a rest.  Python `==` between
such values compares integers unless the left operand is `NULL`
(`eqPyB` below). -/

/-- Integer value of a byte string (`Hex._int`). -/
def toIntB (bs : List Nat) : Nat :=
  bs.foldl (fun a b => a * 256 + b) 0

/-- Python `==` between byte-level numbers: `_NullNumber.__eq__` compares
by null-ness, `T3Number.__eq__` compares the `_int`s (and `NULL._int` is
0, so `toIntB` of `[]` agrees). -/
def eqPyB (a b : List Nat) : Bool :=
  if a.isEmpty then b.isEmpty else toIntB a == toIntB b

mutual
/-- A field value (`T3Field.value`): Python `None`, a numeric value
(bytes, `[]` being `NULL`), a nested table, or a list of values (as
returned by `__getattr__` for a repeated name). -/
inductive TVal where
  | vnone
  | num (bs : List Nat)
  | tbl (t : TTable)
  | lst (vs : List TVal)
/-- `T3Binding(callback, name)`.  `bid` models the Python object identity
used by the `in _binding_stack` membership test and by
`_compute_rest`'s identity search; distinct binding objects carry
distinct ids.  Callbacks are modelled as functions on numeric values
(every callback exercised in this development receives and returns a
number; `T3Table._coerce` then returns the number unchanged). -/
inductive TBind where
  | mk (bid : Nat) (cb : List Nat → List Nat) (src : Option String)
/-- `T3Field(pattern, name, value, value_binding)`.  The formatter is
display-only and not modelled. -/
inductive TField where
  | mk (name : String) (pat : Option HPat) (value : TVal) (binding : Option TBind)
/-- `T3Table`: the ordered field list.  `_fieldnames` is a derived
multiset and `_parent` only rewires display/root lookup; neither carries
independent state. -/
inductive TTable where
  | mk (fields : List TField)
/-- The pattern sum (`pattern_factory` targets): `T3PatternSection`,
`T3PatternValue` (value already coerced to the table's byte form),
`T3PatternAny`, `T3PatternAlt`, `T3PatternPrefixed`, `T3PatternFunction`
(the callback receives a by-name read view of the containing table — the
`getattr` accesses such callbacks perform — and the data, and returns the
pattern produced by `pattern_factory`), and a table used as a pattern. -/
inductive HPat where
  | sec (k : Nat)
  | lit (bs : List Nat)
  | anyP
  | alt (ps : List HPat)
  | prefixed (pfx : HPat) (p : HPat)
  | fnP (f : (String → Option (List Nat)) → List Nat → HPat)
  | ptable (t : TTable)
end

/-- Field list of a table. -/
def tfields : TTable → List TField
  | .mk fs => fs

/-- Field name. -/
def fname : TField → String
  | .mk n _ _ _ => n

/-- Field pattern. -/
def fpat : TField → Option HPat
  | .mk _ p _ _ => p

/-- Field value. -/
def fval : TField → TVal
  | .mk _ _ v _ => v

/-- Field binding. -/
def fbind : TField → Option TBind
  | .mk _ _ _ b => b

/-- `field.value = v` (the matcher's assignment). -/
def setVal : TField → TVal → TField
  | .mk n p _ b, v => .mk n p v b

/-- Binding identity. -/
def bindId : TBind → Nat
  | .mk i _ _ => i

/-- Binding callback. -/
def bindCb : TBind → (List Nat → List Nat)
  | .mk _ c _ => c

/-- Binding source name. -/
def bindSrc : TBind → Option String
  | .mk _ _ s => s

/-- `bool(field)`: `self.value is not None`. -/
def isNoneV : TVal → Bool
  | .vnone => true
  | _ => false

/-- `self.value not in (None, T3Number.NULL)` — the guard at the top of
`T3Field.get_value`.  Membership in a tuple tests with `==`, and
`T3Number.__eq__` compares integers, so *any* numeric value whose
integer is 0 (not just `NULL` itself) counts as unset; tables and lists
never do. -/
def valueIsSet : TVal → Bool
  | .vnone => false
  | .num bs => toIntB bs != 0
  | .tbl _ => true
  | .lst _ => true

/-- Python `len` of a match value: byte length for numbers (`Hex`),
*field count* for tables (`T3Table.__len__`), element count for lists.
`T3PatternTable.match` applies this to nested-table match values when
re-slicing the combined value. -/
def tvalLen : TVal → Nat
  | .vnone => 0
  | .num bs => bs.length
  | .tbl t => (tfields t).length
  | .lst vs => vs.length

/-- `T3Match(value, rest, fail)`. -/
structure PMatch where
  value : TVal
  rest : List Nat
  fail : Bool

/-- Runtime outcomes of binding evaluation: the circular-binding
`RuntimeError`, the model's fuel exhaustion (standing for unbounded
recursion), and the `TypeError`/`AttributeError` paths this development
does not traverse. -/
inductive EvalErr where
  | circular
  | fuelOut
  | typeErr
deriving DecidableEq, Repr

/-- Merge the mutated participating fields back over the full field list
of the table copy (in the source the participating fields alias the
copy's `_fields`, so their mutation is visible in the table; here the
table is reassembled). -/
def mergeFields : List TField → List TField → List TField
  | [], _ => []
  | f :: fs, repl =>
    if isNoneV (fval f) then f :: mergeFields fs repl
    else
      match repl with
      | r :: rs => r :: mergeFields fs rs
      | [] => f :: mergeFields fs []

/-- `T3PatternAlt.match`: first non-failing alternative wins. -/
def altRun (matchOne : HPat → PMatch) (data : List Nat) : List HPat → PMatch
  | [] => ⟨.vnone, data, true⟩
  | p :: ps =>
    let m := matchOne p
    if m.fail then altRun matchOne data ps else m

/-- The reversed `for k in range(len(data)-1, -1, -1)` search in
`T3PatternTable.match` for an `Any` field followed by further fields:
`attempt Q' d'` is `T3PatternTable(self.fields[1:]).match(d')` on the
current (mutated-in-place) remaining fields `Q'`.  The counter argument
is `k+1`; the first index tried is `len(data)-1`, i.e. the *largest*
prefix for the `Any` field is tried first.  On success the `Any` field
receives `data[:k]` and the match value is replaced by the whole data. -/
def anyScan (attempt : List TField → List Nat → (List TField × PMatch))
    (f : TField) (data : List Nat) : List TField → Nat → (List TField × PMatch)
  | q, 0 => (f :: q, ⟨.vnone, data, true⟩)
  | q, k + 1 =>
    let r := attempt q (data.drop k)
    if r.2.fail then anyScan attempt f data r.1 k
    else (setVal f (.num (data.take k)) :: r.1, { r.2 with value := .num data })

mutual

/-- `T3Field.get_value`.  A value that is set (integer ≠ 0, or a
table/list) is returned as stored.  Otherwise, if a binding is present:
the circular-binding check consults the evaluation stack (`len > 10` and
the same binding object already on it), the binding object is pushed,
the bound value is computed (`"*"` → `_compute_rest`, a name →
`getattr`, no name → the containing table), the callback is applied and
the result — numeric for every callback in this development — is
returned (coercion by `_coerce` leaves numbers unchanged).  Without a
binding the stored value is returned. -/
def getVal (t : TTable) (f : TField) (st : List Nat) : Nat → Except EvalErr TVal
  | 0 => throw .fuelOut
  | fuel + 1 =>
    if valueIsSet (fval f) then .ok (fval f)
    else
      match fbind f with
      | some b =>
        if st.length > 10 && st.contains (bindId b) then throw .circular
        else do
          let bound ←
            match bindSrc b with
            | some nm =>
              if nm = "*" then computeRest t (bindId b) (st ++ [bindId b]) fuel
              else getattrT t nm (st ++ [bindId b]) fuel
            | none => .ok (.tbl t)
          match bound with
          | .num bs => .ok (.num (bindCb b bs))
          | _ => throw .typeErr
      | none => .ok (fval f)

/-- `T3Table.__getattr__`: the value of the single field of that name,
or the list of values when the name repeats; a missing name raises. -/
def getattrT (t : TTable) (nm : String) (st : List Nat) : Nat → Except EvalErr TVal
  | 0 => throw .fuelOut
  | fuel + 1 =>
    match (tfields t).filter (fun f => fname f == nm) with
    | [] => throw .typeErr
    | [f] => getVal t f st fuel
    | fs => do
      let vs ← fs.mapM (fun f => getVal t f st fuel)
      .ok (.lst vs)

/-- `T3Binding._compute_rest` (the `"*"` source): locate the field
carrying this binding (by object identity), evaluate every later field,
and reduce by concatenation; an empty tail yields `NULL`.  Values taken
by the reduction are numeric in this development (table-valued operands
would take the `T3List` route). -/
def computeRest (t : TTable) (bid : Nat) (st : List Nat) : Nat → Except EvalErr TVal
  | 0 => throw .fuelOut
  | fuel + 1 =>
    match (tfields t).findIdx? (fun f =>
        match fbind f with
        | some b => bindId b == bid
        | none => false) with
    | none => .ok (.num [])
    | some i =>
      let after := (tfields t).drop (i + 1)
      if after.isEmpty then .ok (.num [])
      else do
        let vs ← after.mapM (fun g => getVal t g st fuel)
        let bss ← vs.mapM (fun v =>
          match v with
          | .num bs => Except.ok bs
          | _ => Except.error EvalErr.typeErr)
        .ok (.num bss.flatten)

/-- Bytes contributed by one field value during synthesis
(`T3Table.get_value`'s loop body): `None` contributes nothing, a number
its bytes, a nested table its recursive synthesis, a list the
concatenation of its members' bytes (`T3List.get_value`). -/
def gvBytes : TVal → Nat → Except EvalErr (Option (List Nat))
  | _, 0 => throw .fuelOut
  | .vnone, _ + 1 => .ok none
  | .num bs, _ + 1 => .ok (some bs)
  | .tbl t, fuel + 1 => do
    let bs ← synthT t fuel
    .ok (some bs)
  | .lst vs, fuel + 1 => do
    let parts ← vs.mapM (fun v => gvBytes v fuel)
    let bss ← parts.mapM (fun p =>
      match p with
      | some bs => Except.ok bs
      | none => Except.error EvalErr.typeErr)
    .ok (some bss.flatten)

/-- `T3Table.get_value` (synthesis): evaluate each non-`None` field in
order, drop `None` results, and reduce the values by concatenation
(`NULL`, the empty byte string, is the unit; no value at all reduces to
`NULL`). -/
def synthT : TTable → Nat → Except EvalErr (List Nat)
  | _, 0 => throw .fuelOut
  | t, fuel + 1 => do
    let picked := (tfields t).filter (fun f => !(isNoneV (fval f)))
    let vs ← picked.mapM (fun f => getVal t f [] fuel)
    let parts ← vs.mapM (fun v => gvBytes v fuel)
    .ok (parts.filterMap id).flatten

/-- `T3Table.match`: coerce the data, copy the table, run the sequential
matcher over the participating (non-`None`) fields, fail if nothing was
consumed (`m.rest == data`, an integer comparison), and otherwise return
the populated copy as the match value. -/
def tableMatch : TTable → List Nat → Nat → PMatch
  | _, data, 0 => ⟨.vnone, data, true⟩
  | t, data, fuel + 1 =>
    let flds := (tfields t).filter (fun f => !(isNoneV (fval f)))
    let r := seqMatch [] flds data fuel
    if r.2.fail then r.2
    else if eqPyB r.2.rest data then { r.2 with fail := true }
    else { r.2 with value := .tbl (TTable.mk (mergeFields (tfields t) r.1)) }

/-- `T3PatternTable.match` over the remaining participating fields
(`done` holds the already-processed fields, most recent first; they are
part of the containing table and visible to `Function` patterns).
An `Any` field with successors triggers the reverse scan; otherwise the
head pattern is matched, its value assigned to the head field, and the
tail is matched against the rest, the combined value being re-sliced
from the data by the *Python lengths* of the part values. -/
def seqMatch (done todo : List TField) (data : List Nat) : Nat → (List TField × PMatch)
  | 0 => (todo, ⟨.vnone, data, true⟩)
  | fuel + 1 =>
    match todo with
    | [] => ([], ⟨.vnone, data, true⟩)
    | [f] =>
      match fpat f with
      | none => ([f], ⟨.vnone, data, true⟩)
      | some P =>
        let view := fun nm =>
          match getattrT (TTable.mk ((done.reverse) ++ [f])) nm [] fuel with
          | .ok (.num bs) => some bs
          | _ => none
        let m := hpatMatch view P data fuel
        if m.fail then ([f], m) else ([setVal f m.value], m)
    | f :: g :: fs =>
      let q := g :: fs
      match fpat f with
      | none => (f :: q, ⟨.vnone, data, true⟩)
      | some P =>
        match P with
        | .anyP =>
          anyScan (fun q' d' => seqMatch (f :: done) q' d' fuel) f data q data.length
        | _ =>
          let view := fun nm =>
            match getattrT (TTable.mk ((done.reverse) ++ f :: q)) nm [] fuel with
            | .ok (.num bs) => some bs
            | _ => none
          let m := hpatMatch view P data fuel
          if m.fail then (f :: q, m)
          else
            let f' := setVal f m.value
            let r := seqMatch (f' :: done) q m.rest fuel
            if r.2.fail then
              if isNoneV r.2.value then (f' :: r.1, { r.2 with value := m.value })
              else (f' :: r.1,
                { r.2 with value := .num (data.take (tvalLen m.value + tvalLen r.2.value)) })
            else (f' :: r.1,
              { r.2 with value := .num (data.take (tvalLen m.value + tvalLen r.2.value)) })

/-- `match` of a single pattern (`T3PatternSection`, `T3PatternValue`,
`T3PatternAny`, `T3PatternAlt`, `T3PatternPrefixed`,
`T3PatternFunction`, table-as-pattern).  `view` is the by-name read
access a `Function` callback has to the containing table. -/
def hpatMatch (view : String → Option (List Nat)) (P : HPat) (data : List Nat) :
    Nat → PMatch
  | 0 => ⟨.vnone, data, true⟩
  | fuel + 1 =>
    match P with
    | .sec k =>
      let v := data.take k
      if v.length == k then ⟨.num v, data.drop k, false⟩ else ⟨.vnone, data, true⟩
    | .lit bs =>
      let k := bs.length
      if eqPyB (data.take k) bs then ⟨.num (data.take k), data.drop k, false⟩
      else ⟨.vnone, data, true⟩
    | .anyP => ⟨.num data, [], false⟩
    | .alt ps => altRun (fun p => hpatMatch view p data fuel) data ps
    | .prefixed pfx p =>
      let m := hpatMatch view pfx data fuel
      if m.fail then m else hpatMatch view p data fuel
    | .fnP f => hpatMatch view (f view data) data fuel
    | .ptable t => tableMatch t data fuel

end

end T3

namespace T3

/-- One pass of `T3Set.match`'s inner `for` loop: try each remaining
candidate field's pattern at the current position; the first that
succeeds is returned (with its value assigned) together with the
remaining candidates and the new rest.  `none` is the loop's `else`
clause: no candidate matched. -/
def setPick (fuel : Nat) : List TField → List Nat → Option (TField × List TField × List Nat)
  | [], _ => none
  | f :: fs, R =>
    match fpat f with
    | none => none
    | some P =>
      let m := hpatMatch (fun _ => none) P R fuel
      if m.fail then
        match setPick fuel fs R with
        | some (g, rest, R') => some (g, f :: rest, R')
        | none => none
      else some (setVal f m.value, fs, m.rest)

/-- `T3Set.match`'s `while True` loop.  After a successful pick the loop
continues only while candidates remain *and* the rest is truthy
(`if fields and R` — `T3Number.__nonzero__`, i.e. nonzero integer);
otherwise it returns success with whatever rest is left.  The counter is
the candidate count, which the loop strictly decreases. -/
def setLoop (fuel : Nat) (acc : List TField) (fields : List TField) (R : List Nat) :
    Nat → PMatch
  | 0 => ⟨.vnone, R, true⟩
  | n + 1 =>
    match setPick fuel fields R with
    | none => ⟨.vnone, R, true⟩
    | some (g, rest, R') =>
      let acc' := acc ++ [g]
      if !rest.isEmpty && toIntB R' != 0 then setLoop fuel acc' rest R' n
      else ⟨.tbl (TTable.mk acc'), R', false⟩

/-- `T3Set.match`: copy the participating fields and run the pick loop,
accumulating the matched fields into a fresh table in match order. -/
def setMatch (s : TTable) (data : List Nat) (fuel : Nat) : PMatch :=
  let fields := (tfields s).filter (fun f => !(isNoneV (fval f)))
  setLoop fuel [] fields data (fields.length + 1)

/-- `T3Repeater(table, minimum, maximum)`. -/
structure T3Repeater where
  table : TTable
  minR : Nat
  maxR : Nat

/-- The `while i < self._max` loop of `T3Repeater.match`: on a failing
inner match, the whole repeater fails if fewer than `minimum` matches
were collected, and otherwise succeeds with the list collected so far;
on success the value is appended and the rest is consumed.  The counter
is the number of iterations left (`maximum - i`). -/
def repLoop (t : TTable) (minR fuel : Nat) (lst : List TVal) (R : List Nat) (i : Nat) :
    Nat → PMatch
  | 0 => ⟨.lst lst, R, false⟩
  | n + 1 =>
    let m := tableMatch t R fuel
    if m.fail then
      if i < minR then m else ⟨.lst lst, R, false⟩
    else repLoop t minR fuel (lst ++ [m.value]) m.rest (i + 1) n

/-- `T3Repeater.match`. -/
def repMatch (r : T3Repeater) (data : List Nat) (fuel : Nat) : PMatch :=
  repLoop r.table r.minR fuel [] data 0 r.maxR

/-- `T3List.match`: apply each element (a table pattern) in order,
collecting the matched values; the first failure aborts. -/
def listMatchLoop (fuel : Nat) (lst : List TVal) (R : List Nat) : List TVal → PMatch
  | [] => ⟨.lst lst, R, false⟩
  | v :: rest =>
    match v with
    | .tbl t =>
      let m := tableMatch t R fuel
      if m.fail then m else listMatchLoop fuel (lst ++ [m.value]) m.rest rest
    | _ => ⟨.vnone, R, true⟩

/-- `T3List.match` entry point. -/
def listMatch (vs : List TVal) (data : List Nat) (fuel : Nat) : PMatch :=
  listMatchLoop fuel [] data vs

/-- `T3Table.__lshift__`: raise `MatchingFailure(m)` (modelled as
`Except.error m`, the exception carrying the match) when the match
failed, otherwise return the populated value. -/
def tableLshift (t : TTable) (data : List Nat) (fuel : Nat) : Except PMatch TVal :=
  let m := tableMatch t data fuel
  if m.fail then .error m else .ok m.value

/-- `T3Repeater.__lshift__` as written in the source: its guard is
`if not m:` — but `T3Match` defines no truthiness protocol, so a match
object is always truthy, the guard is always false, and the
`raise MatchingFailure(m)` branch is dead code.  The operator therefore
returns `m.value` unconditionally, even when `m.fail` is set. -/
def repLshift (r : T3Repeater) (data : List Nat) (fuel : Nat) : Except PMatch TVal :=
  Except.ok (repMatch r data fuel).value

/-- `T3List.__lshift__`: the same dead `if not m:` guard as
`T3Repeater.__lshift__`; returns `m.value` unconditionally. -/
def listLshift (vs : List TVal) (data : List Nat) (fuel : Nat) : Except PMatch TVal :=
  Except.ok (listMatch vs data fuel).value

end T3

namespace T3

/-! ## Basic lemmas about the numeric model -/

theorem fromDigits_append (b : Nat) (l₁ l₂ : List Nat) :
    fromDigits b (l₁ ++ l₂) = l₂.foldl (fun a d => a * b + d) (fromDigits b l₁) := by
  simp [fromDigits, List.foldl_append]

theorem fromDigits_replicate_zero (b k : Nat) :
    fromDigits b (List.replicate k 0) = 0 := by
  induction k with
  | zero => rfl
  | succ k ih =>
    have : List.replicate (k + 1) 0 = List.replicate k 0 ++ [0] :=
      List.replicate_succ' ..
    rw [this, fromDigits_append, ih]
    simp

theorem fromDigits_zfill (b w : Nat) (s : List Nat) :
    fromDigits b (zfill w s) = fromDigits b s := by
  have h := fromDigits_append b (List.replicate (w - s.length) 0) s
  simpa [zfill, fromDigits_replicate_zero] using h

theorem zfill_length (w : Nat) (s : List Nat) :
    (zfill w s).length = max w s.length := by
  simp [zfill]
  omega

theorem pyDigitsAux_inv (b : Nat) (hb : 2 ≤ b) :
    ∀ fuel n, n ≤ fuel → fromDigits b (pyDigitsAux b fuel n) = n := by
  intro fuel
  induction fuel with
  | zero => intro n hn; interval_cases n; rfl
  | succ fuel ih =>
    intro n hn
    by_cases h0 : n = 0
    · subst h0; simp [pyDigitsAux, fromDigits]
    · have hdiv : n / b ≤ fuel := by
        have : n / b < n := Nat.div_lt_self (Nat.pos_of_ne_zero h0) (by omega)
        omega
      rw [pyDigitsAux, if_neg h0, fromDigits_append, ih _ hdiv]
      simp only [List.foldl_cons, List.foldl_nil]
      rw [Nat.mul_comm (n / b) b]
      exact Nat.div_add_mod n b

theorem fromDigits_pyDigits (b n : Nat) (hb : 2 ≤ b) :
    fromDigits b (pyDigits b n) = n := by
  by_cases h0 : n = 0
  · subst h0; simp [pyDigits, fromDigits]
  · rw [pyDigits, if_neg h0, pyDigitsAux_inv b hb n n le_rfl]

theorem t3int_mk (s : List Nat) (b : Nat) : t3int (T3V.mk s b) = fromDigits b s := rfl

/-- The base produced by `_maxfill` is the maximum of the two bases. -/
theorem maxfill_base (x y : T3V) : (maxfill x y).1 = max (t3base x) (t3base y) := by
  simp only [maxfill]
  by_cases h : t3base y = t3base x
  · rw [if_pos h, h]; simp
  · rw [if_neg h]
    by_cases h2 : t3base y > t3base x
    · rw [if_pos h2]; omega
    · rw [if_neg h2]; omega

/-- The fill width produced by `_maxfill`. -/
theorem maxfill_width (x y : T3V) :
    (maxfill x y).2 =
      if t3base y = t3base x then max (t3str x).length (t3str y).length
      else if t3base x < t3base y then (t3str y).length else (t3str x).length := by
  simp only [maxfill]
  by_cases h : t3base y = t3base x
  · rw [if_pos h, if_pos h]
  · rw [if_neg h, if_neg h]
    by_cases h2 : t3base y > t3base x
    · rw [if_pos h2, if_pos h2]
    · rw [if_neg h2, if_neg h2]

/-- Every `_maxfill`-shaped binary operation computes its integer result
from the operands' integers. -/
theorem t3binop_int (f : Nat → Nat → Nat) (x y : T3V)
    (hx : 2 ≤ t3base x) (hy : 2 ≤ t3base y) :
    t3int (t3binop f x y) = f (t3int x) (t3int y) := by
  simp only [t3binop, t3int_mk, fromDigits_zfill]
  rw [maxfill_base]
  exact fromDigits_pyDigits _ _ (by omega)

/-- The result base of a `_maxfill`-shaped operation is the maximum of
the operand bases. -/
theorem t3binop_base (f : Nat → Nat → Nat) (x y : T3V) :
    t3base (t3binop f x y) = max (t3base x) (t3base y) := by
  simp only [t3binop, t3base]
  exact maxfill_base x y

/-- The result width of a `_maxfill`-shaped operation: the `_maxfill`
width, or more if the integer result needs more digits. -/
theorem t3binop_length (f : Nat → Nat → Nat) (x y : T3V) :
    (t3str (t3binop f x y)).length =
      max (if t3base y = t3base x then max (t3str x).length (t3str y).length
           else if t3base x < t3base y then (t3str y).length else (t3str x).length)
          (pyDigits (max (t3base x) (t3base y)) (f (t3int x) (t3int y))).length := by
  have h : t3str (t3binop f x y) =
      zfill (maxfill x y).2 (pyDigits (maxfill x y).1 (f (t3int x) (t3int y))) := rfl
  rw [h, zfill_length, maxfill_base, maxfill_width]

end T3

namespace T3

/-! ## Claim C5: arithmetic result base and width -/

/-- **C5, counterexample.**  The claim states that the result's digit
string is zero-padded to width `max(len(A.S), len(B.S))`.  For
`A = T3Number("00000001", 2)` (8 digits) and `B = T3Number("02", 16)`
(2 digits), `A + B` is `T3Number("03", 16)`: its width is 2, the width
of the larger-base operand alone, not `max(8, 2) = 8`. -/
theorem c5_counterexample :
    t3add (T3V.mk [0, 0, 0, 0, 0, 0, 0, 1] 2) (T3V.mk [0, 2] 16) = T3V.mk [0, 3] 16 ∧
    ¬ ((t3str (t3add (T3V.mk [0, 0, 0, 0, 0, 0, 0, 1] 2) (T3V.mk [0, 2] 16))).length =
        max (t3str (T3V.mk [0, 0, 0, 0, 0, 0, 0, 1] 2)).length
            (t3str (T3V.mk [0, 2] 16)).length) := by
  decide

/-- **C5 (amended).**  Every arithmetic/bitwise binary operation (`+`,
`-`, `*`, `/`, `%`, `<<`, `>>`, `&`, `|`, `^`) is an instance of the
`_maxfill`-shaped combinator; its integer result is computed from
`int(A)` and `int(B)` (with `-` truncating at zero, and `/`, `%`
requiring a nonzero divisor in the source), and its base is
`max(A.base, B.base)`.  Its digit string is zero-padded to width
`max(len(A.S), len(B.S))` only when the two bases are *equal*; when the
bases differ, the pad width is the digit-string length of the
larger-base operand alone. -/
theorem c5_amended (s₁ s₂ : List Nat) (b₁ b₂ : Nat) (h₁ : 2 ≤ b₁) (h₂ : 2 ≤ b₂) :
    (t3add (T3V.mk s₁ b₁) (T3V.mk s₂ b₂) = t3binop (· + ·) (T3V.mk s₁ b₁) (T3V.mk s₂ b₂) ∧
     t3sub (T3V.mk s₁ b₁) (T3V.mk s₂ b₂) = t3binop (· - ·) (T3V.mk s₁ b₁) (T3V.mk s₂ b₂) ∧
     t3mul (T3V.mk s₁ b₁) (T3V.mk s₂ b₂) = t3binop (· * ·) (T3V.mk s₁ b₁) (T3V.mk s₂ b₂) ∧
     t3div (T3V.mk s₁ b₁) (T3V.mk s₂ b₂) = t3binop (· / ·) (T3V.mk s₁ b₁) (T3V.mk s₂ b₂) ∧
     t3mod (T3V.mk s₁ b₁) (T3V.mk s₂ b₂) = t3binop (· % ·) (T3V.mk s₁ b₁) (T3V.mk s₂ b₂) ∧
     t3shiftl (T3V.mk s₁ b₁) (T3V.mk s₂ b₂) =
       t3binop (fun x y => x <<< y) (T3V.mk s₁ b₁) (T3V.mk s₂ b₂) ∧
     t3shiftr (T3V.mk s₁ b₁) (T3V.mk s₂ b₂) =
       t3binop (fun x y => x >>> y) (T3V.mk s₁ b₁) (T3V.mk s₂ b₂) ∧
     t3and (T3V.mk s₁ b₁) (T3V.mk s₂ b₂) =
       t3binop (fun x y => x &&& y) (T3V.mk s₁ b₁) (T3V.mk s₂ b₂) ∧
     t3or (T3V.mk s₁ b₁) (T3V.mk s₂ b₂) =
       t3binop (fun x y => x ||| y) (T3V.mk s₁ b₁) (T3V.mk s₂ b₂) ∧
     t3xor (T3V.mk s₁ b₁) (T3V.mk s₂ b₂) =
       t3binop (fun x y => x ^^^ y) (T3V.mk s₁ b₁) (T3V.mk s₂ b₂)) ∧
    (∀ f : Nat → Nat → Nat,
      t3base (t3binop f (T3V.mk s₁ b₁) (T3V.mk s₂ b₂)) = max b₁ b₂ ∧
      t3int (t3binop f (T3V.mk s₁ b₁) (T3V.mk s₂ b₂)) =
        f (t3int (T3V.mk s₁ b₁)) (t3int (T3V.mk s₂ b₂)) ∧
      (t3str (t3binop f (T3V.mk s₁ b₁) (T3V.mk s₂ b₂))).length =
        max (if b₂ = b₁ then max s₁.length s₂.length
             else if b₁ < b₂ then s₂.length else s₁.length)
            (pyDigits (max b₁ b₂)
              (f (t3int (T3V.mk s₁ b₁)) (t3int (T3V.mk s₂ b₂)))).length) := by
  refine ⟨⟨rfl, rfl, rfl, rfl, rfl, rfl, rfl, rfl, rfl, rfl⟩, fun f => ⟨?_, ?_, ?_⟩⟩
  · exact t3binop_base f _ _
  · exact t3binop_int f _ _ h₁ h₂
  · exact t3binop_length f _ _

/-- Witness for `c5_amended` at `A = T3Number("1", 2)`,
`B = T3Number("2", 16)`. -/
theorem c5_amended_witness :
    t3base (t3binop (· + ·) (T3V.mk [1] 2) (T3V.mk [2] 16)) = 16 ∧
    t3int (t3binop (· + ·) (T3V.mk [1] 2) (T3V.mk [2] 16)) = 3 := by
  obtain ⟨hb, hi, -⟩ :=
    (c5_amended [1] [2] 2 16 (by decide) (by decide)).2 (· + ·)
  exact ⟨by rw [hb]; decide, by rw [hi]; decide⟩

/-! ## Claim C6: NULL laws -/

/-- **C6, counterexample.**  The claim states that `NULL` compares equal
only to itself and that `v == NULL` is false for every non-`NULL` `v`.
But for `v = Hex("00")` (a non-`NULL` number whose integer is 0),
`v == NULL` evaluates `T3Number.__eq__`, which compares `_int`s and
returns `True`. -/
theorem c6_counterexample :
    T3V.mk [0, 0] 16 ≠ T3V.null ∧ t3eq (T3V.mk [0, 0] 16) T3V.null = true := by
  decide

/-- **C6 (amended).**  `NULL // x == x`, `x // NULL == x`,
`x + NULL == x`, `NULL * x == NULL`, `len(NULL) == 0`, and iterating
`NULL` yields `[NULL]`.  On equality, the corrected statement:
`NULL == v` (with `NULL` on the left) holds only for `v = NULL`, but
`v == NULL` (dispatching to `T3Number.__eq__`) holds exactly when
`int(v) == 0` — so `NULL` does *not* compare equal only to itself from
the right. -/
theorem c6_amended (x : T3V) (hx : 2 ≤ t3base x) :
    t3floordiv T3V.null x = some x ∧
    t3floordiv x T3V.null = some x ∧
    t3eq (t3add x T3V.null) x = true ∧
    t3mul T3V.null x = T3V.null ∧
    t3len T3V.null = 0 ∧
    t3iter T3V.null = [T3V.null] ∧
    (∀ v : T3V, t3eq T3V.null v = true ↔ v = T3V.null) ∧
    (∀ v : T3V, t3eq v T3V.null = true ↔ t3int v = 0) := by
  refine ⟨?_, ?_, ?_, rfl, rfl, rfl, ?_, ?_⟩
  · cases x <;> rfl
  · cases x <;> rfl
  · cases x with
    | null => rfl
    | mk s b =>
      have hint : t3int (t3add (T3V.mk s b) T3V.null) = t3int (T3V.mk s b) := by
        have h := t3binop_int (· + ·) (T3V.mk s b) T3V.null hx (by decide)
        simpa [t3add, t3int] using h
      have hshape : ∃ s' b', t3add (T3V.mk s b) T3V.null = T3V.mk s' b' := by
        exact ⟨_, _, rfl⟩
      obtain ⟨s', b', hs⟩ := hshape
      rw [hs] at hint ⊢
      simp only [t3int_mk] at hint
      simp only [t3eq]
      simp [hint]
  · intro v; cases v <;> simp [t3eq]
  · intro v
    cases v with
    | null => simp [t3eq, t3int]
    | mk s b => simp [t3eq, t3int]

/-- Witness for `c6_amended` at `x = T3Number("7", 16)`. -/
theorem c6_amended_witness :
    t3floordiv T3V.null (T3V.mk [7] 16) = some (T3V.mk [7] 16) ∧
    t3eq (t3add (T3V.mk [7] 16) T3V.null) (T3V.mk [7] 16) = true :=
  ⟨(c6_amended (T3V.mk [7] 16) (by decide)).1,
   (c6_amended (T3V.mk [7] 16) (by decide)).2.2.1⟩

/-! ## Claim C8: leading-zero preservation across base conversion -/

/-- **C8, counterexample.**  The claim asserts that every conversion
pads the total digit-string length to a multiple of K2 (the target's
digits per byte).  Converting `Hex("01")` (k = 1 leading zero digit) to
base 2 performs *no* padding at all, because the source's zero prefix is
shorter than one source byte (`k < DIGITS_PER_BYTE[16] = 2`): the
result is the single digit `"1"`, and 1 is not a multiple of
`DIGITS_PER_BYTE[2] = 8`. -/
theorem c8_counterexample :
    convertT3 (T3V.mk [0, 1] 16) 2 = T3V.mk [1] 2 ∧
    leadZeros (t3str (T3V.mk [0, 1] 16)) = 1 ∧
    digitsPerByte 2 = 8 ∧
    ¬ ((t3str (convertT3 (T3V.mk [0, 1] 16) 2)).length % digitsPerByte 2 = 0) := by
  decide

theorem digitsPerByte_pos (b : Nat) : 0 < digitsPerByte b := by
  unfold digitsPerByte
  split_ifs <;> omega

theorem leadZeros_replicate_append (k : Nat) (s : List Nat) :
    leadZeros (List.replicate k 0 ++ s) = k + leadZeros s := by
  induction k with
  | zero => simp
  | succ k ih =>
    rw [List.replicate_succ, List.cons_append]
    show (if (0 : Nat) = 0 then leadZeros (List.replicate k 0 ++ s) + 1 else 0) = _
    rw [if_pos rfl, ih]
    omega

/-- **C8 (amended).**  When a number with `k` leading zero digits and a
*nonzero* integer value is converted from base `b₀` to a different base
`b₁`, and the zero prefix spans at least one full source byte
(`k ≥ K1 = DIGITS_PER_BYTE[b₀]`), the result keeps at least
`⌊k/K1⌋` bytes of zero prefix (`K2 = DIGITS_PER_BYTE[b₁]` digits each)
and its total length is a multiple of K2; the integer value is
preserved.  (When `k < K1` no padding happens at all — the
counterexample — and when the integer is 0 the padding *replaces* the
digit string, so its total length need not be a multiple of K2.) -/
theorem fromDigits_replicate_append (b k : Nat) (s : List Nat) :
    fromDigits b (List.replicate k 0 ++ s) = fromDigits b s := by
  rw [fromDigits_append, fromDigits_replicate_zero]
  rfl

theorem pad_mod (n p K : Nat) (hK : 0 < K) (h0 : (n + p) % K ≠ 0) :
    (p + (K - (n + p) % K) + n) % K = 0 := by
  have hd := Nat.div_add_mod (n + p) K
  have hlt : (n + p) % K < K := Nat.mod_lt _ hK
  have he : p + (K - (n + p) % K) + n = K * ((n + p) / K) + K := by omega
  rw [he, ← Nat.mul_succ]
  exact Nat.mul_mod_right K _

theorem c8_amended (s : List Nat) (b₀ b₁ : Nat) (hb : b₀ ≠ b₁) (h₁ : 2 ≤ b₁)
    (hnz : fromDigits b₀ s ≠ 0) (hk : digitsPerByte b₀ ≤ leadZeros s) :
    digitsPerByte b₁ * (leadZeros s / digitsPerByte b₀) ≤
      leadZeros (t3str (convertT3 (T3V.mk s b₀) b₁)) ∧
    (t3str (convertT3 (T3V.mk s b₀) b₁)).length % digitsPerByte b₁ = 0 ∧
    t3int (convertT3 (T3V.mk s b₀) b₁) = t3int (T3V.mk s b₀) := by
  have hK : 0 < digitsPerByte b₁ := digitsPerByte_pos b₁
  simp only [convertT3]
  rw [if_neg hb, if_pos hk, if_neg hnz]
  split_ifs with hr
  · refine ⟨?_, ?_, ?_⟩
    · simp only [t3str, leadZeros_replicate_append]
      omega
    · simp only [t3str, List.length_append, List.length_replicate]
      exact pad_mod _ _ _ hK hr
    · simp only [t3int_mk]
      rw [fromDigits_replicate_append]
      exact fromDigits_pyDigits _ _ h₁
  · push_neg at hr
    refine ⟨?_, ?_, ?_⟩
    · simp only [t3str, leadZeros_replicate_append]
      omega
    · simp only [t3str, List.length_append, List.length_replicate]
      rw [Nat.add_comm]
      exact hr
    · simp only [t3int_mk]
      rw [fromDigits_replicate_append]
      exact fromDigits_pyDigits _ _ h₁

/-- Witness for `c8_amended`: `Hex("00 05")` (k = 2) converted to base
2 keeps one byte (8 digits) of zero prefix and has total length a
multiple of 8. -/
theorem c8_amended_witness :
    digitsPerByte 2 * (leadZeros [0, 0, 5] / digitsPerByte 16) ≤
      leadZeros (t3str (convertT3 (T3V.mk [0, 0, 5] 16) 2)) ∧
    (t3str (convertT3 (T3V.mk [0, 0, 5] 16) 2)).length % digitsPerByte 2 = 0 :=
  ⟨(c8_amended [0, 0, 5] 16 2 (by decide) (by decide) (by decide) (by decide)).1,
   (c8_amended [0, 0, 5] 16 2 (by decide) (by decide) (by decide) (by decide)).2.1⟩

end T3

namespace T3

/-! ## Claim C10: truthiness is integer-nonzero -/

/-- A two-candidate prefix set, used to exercise `T3Set.match`'s
`if fields and R` continuation test. -/
def setTwoCand : TTable :=
  TTable.mk
    [TField.mk "A" (some (.lit [0xA5])) (.num [1]) none,
     TField.mk "B" (some (.lit [0xB6])) (.num [1]) none]

/-- **C10.**  `T3Number.__nonzero__` is `self._int != 0`: truthiness
follows the integer value, not the digit-string length, so the 4-digit,
zero-valued `Hex("00 00")` is falsy.  Consequently `T3Set.match`'s
`if fields and R` test treats an all-zero unconsumed rest exactly like
exhausted data: with candidate `B` still unconsumed, matching
`A5 00 00` stops and succeeds with rest `00 00`, just as matching `A5`
succeeds with empty rest. -/
theorem c10_nonzero_truthiness :
    (∀ x : T3V, t3bool x = true ↔ t3int x ≠ 0) ∧
    (t3bool (T3V.mk [0, 0, 0, 0] 16) = false ∧ t3len (T3V.mk [0, 0, 0, 0] 16) = 4) ∧
    ((setMatch setTwoCand [0xA5, 0, 0] 10).fail = false ∧
     (setMatch setTwoCand [0xA5, 0, 0] 10).rest = [0, 0]) ∧
    ((setMatch setTwoCand [0xA5] 10).fail = false ∧
     (setMatch setTwoCand [0xA5] 10).rest = []) := by
  refine ⟨fun x => ?_, by decide, by decide, by decide⟩
  simp [t3bool]

/-- Witness for `c10_nonzero_truthiness` at `x = NULL`. -/
theorem c10_nonzero_truthiness_witness : ¬ t3bool T3V.null = true :=
  fun h => ((c10_nonzero_truthiness.1 T3V.null).mp h) rfl

/-! ## Claim C4: the `<<` operators and MatchingFailure -/

/-- A one-byte one-field table. -/
def oneByteTbl : TTable :=
  TTable.mk [TField.mk "r" (some (.sec 1)) (.num []) none]

/-- `T3Repeater(oneByteTbl, minimum = 2, maximum = 100)`. -/
def repTwice : T3Repeater := ⟨oneByteTbl, 2, 100⟩

/-- Does the `<<` result carry a returned value of Python `None`? -/
def isOkNone : Except PMatch TVal → Bool
  | .ok .vnone => true
  | _ => false

/-- Did `<<` raise `MatchingFailure` carrying a failed match? -/
def raisesFail : Except PMatch TVal → Bool
  | .error m => m.fail
  | _ => false

/-- **C4.** `T3Table.__lshift__` does raise `MatchingFailure` on a failed
match (last conjunct).  But `T3Repeater.__lshift__` and
`T3List.__lshift__` guard the raise with `if not m:`, and a `T3Match` is
always truthy (it defines no truthiness protocol), so on a failing match
they raise nothing and return `m.value` — here Python `None` — instead:
the repeater with `minimum = 2` on the one-byte input `AB` fails its
match, yet `<<` returns `None`; likewise for a two-element list on the
same input. -/
theorem c4_lshift_dead_guard :
    (repMatch repTwice [0xAB] 10).fail = true ∧
    isOkNone (repLshift repTwice [0xAB] 10) = true ∧
    (listMatch [.tbl oneByteTbl, .tbl oneByteTbl] [0xAB] 10).fail = true ∧
    isOkNone (listLshift [.tbl oneByteTbl, .tbl oneByteTbl] [0xAB] 10) = true ∧
    raisesFail (tableLshift oneByteTbl [] 10) = true := by
  decide

end T3

namespace T3

/-! ## Claim C7: set matching and failure -/

/-- A single-candidate prefix set. -/
def setOneCand : TTable :=
  TTable.mk [TField.mk "F" (some (.lit [0xA5])) (.num [1]) none]

/-- **C7, counterexample.**  The claim says a set match never succeeds
while unmatched non-empty data remains.  But once the candidate list is
exhausted the loop returns success with whatever rest is left: the
one-candidate set consumes `A5` from `A5 01` and succeeds with the
non-empty (and nonzero) rest `01`. -/
theorem c7_counterexample :
    (setMatch setOneCand [0xA5, 1] 10).fail = false ∧
    (setMatch setOneCand [0xA5, 1] 10).rest = [1] ∧
    toIntB [1] ≠ 0 := by
  decide

theorem setPick_length (fuel : Nat) :
    ∀ (fields : List TField) (R : List Nat) (g : TField) (rest : List TField) (R' : List Nat),
      setPick fuel fields R = some (g, rest, R') → rest.length + 1 = fields.length := by
  intro fields
  induction fields with
  | nil => intro R g rest R' h; simp [setPick] at h
  | cons f fs ih =>
    intro R g rest R' h
    simp only [setPick] at h
    cases hp : fpat f with
    | none => rw [hp] at h; simp at h
    | some P =>
      rw [hp] at h
      dsimp only at h
      by_cases hm : (hpatMatch (fun _ => none) P R fuel).fail = true
      · rw [if_pos hm] at h
        cases hrec : setPick fuel fs R with
        | none => rw [hrec] at h; simp at h
        | some gr =>
          obtain ⟨g₂, rest₂, R₂⟩ := gr
          rw [hrec] at h
          simp only [Option.some.injEq, Prod.mk.injEq] at h
          obtain ⟨-, h2, -⟩ := h
          have := ih R g₂ rest₂ R₂ hrec
          subst h2
          simp
          omega
      · rw [if_neg hm] at h
        simp only [Option.some.injEq, Prod.mk.injEq] at h
        obtain ⟨-, h2, -⟩ := h
        subst h2
        simp

theorem setLoop_success (fuel : Nat) :
    ∀ (n : Nat) (acc fields : List TField) (R : List Nat),
      (setLoop fuel acc fields R n).fail = false →
      ∃ fs, (setLoop fuel acc fields R n).value = .tbl (TTable.mk fs) ∧
        (fs.length = acc.length + fields.length ∨ toIntB (setLoop fuel acc fields R n).rest = 0) := by
  intro n
  induction n with
  | zero => intro acc fields R h; simp [setLoop] at h
  | succ n ih =>
    intro acc fields R h
    simp only [setLoop] at h ⊢
    cases hpick : setPick fuel fields R with
    | none => rw [hpick] at h; simp at h
    | some gr =>
      obtain ⟨g, rest, R'⟩ := gr
      rw [hpick] at h
      dsimp only at h ⊢
      by_cases hc : (!rest.isEmpty && (toIntB R' != 0)) = true
      · rw [if_pos hc] at h ⊢
        obtain ⟨fs, h1, h2⟩ := ih (acc ++ [g]) rest R' h
        refine ⟨fs, h1, ?_⟩
        rcases h2 with h2 | h2
        · left
          have hl := setPick_length fuel fields R g rest R' hpick
          simp only [List.length_append, List.length_cons, List.length_nil] at h2
          omega
        · right; exact h2
      · rw [if_neg hc] at h ⊢
        refine ⟨acc ++ [g], rfl, ?_⟩
        have hca : rest.isEmpty = true ∨ toIntB R' = 0 := by
          rcases Bool.eq_false_or_eq_true rest.isEmpty with he | he
          · exact Or.inl he
          · right
            by_contra hz
            exact hc (by simp [he, bne_iff_ne, hz])
        rcases hca with he | hz
        · left
          have hl := setPick_length fuel fields R g rest R' hpick
          have hr0 : rest.length = 0 := by
            cases rest with
            | nil => rfl
            | cons a l => simp at he
          simp only [List.length_append, List.length_cons, List.length_nil]
          omega
        · right; simpa using hz

/-- **C7 (amended).**  `T3Set.match` repeatedly picks the first
candidate whose pattern matches at the current position.  It *fails*
when no remaining candidate matches (second conjunct: if the very first
pick fails, the match fails).  But it does not fail merely because
unmatched non-empty data remains: on success, either every candidate was
consumed (the populated table holds all participating fields, and the
rest — empty or not — is returned), or the remaining unmatched data has
integer value 0 (the `if fields and R` truthiness test, see C10).  So a
set match *can* succeed with unmatched non-empty data when the candidate
list is exhausted first or when the leftover is all zero bytes. -/
theorem c7_amended (s : TTable) (data : List Nat) (fuel : Nat) :
    ((setMatch s data fuel).fail = false →
      ∃ fs, (setMatch s data fuel).value = .tbl (TTable.mk fs) ∧
        (fs.length = ((tfields s).filter (fun f => !(isNoneV (fval f)))).length ∨
         toIntB (setMatch s data fuel).rest = 0)) ∧
    (setPick fuel ((tfields s).filter (fun f => !(isNoneV (fval f)))) data = none →
      (setMatch s data fuel).fail = true) := by
  constructor
  · intro h
    unfold setMatch at h ⊢
    have hres := setLoop_success fuel _ [] _ data h
    simpa using hres
  · intro h
    unfold setMatch
    simp only [setLoop]
    rw [h]

/-- Witness for `c7_amended`: no candidate of the one-candidate set
matches `B7 01`, so the set match fails. -/
theorem c7_amended_witness : (setMatch setOneCand [0xB7, 1] 10).fail = true :=
  (c7_amended setOneCand [0xB7, 1] 10).2 rfl

end T3

namespace T3

/-! ## Claim C3: binding cycles and chains

The evaluation-stack logic lives in `getVal` (`T3Field.get_value`).  The
claim quantifies over binding graphs; it is settled here on the
parametric families `mkChain n` (an acyclic chain of `n − 1` bindings
ending in a literal field) and `mkCycle n` (a pure cycle of `n` bindings
with every value unset), plus a concrete cyclic table with one value set
for the counterexample. -/

/-- `i` repetitions of a letter: injectively index field names. -/
def idxName (c : Char) (i : Nat) : String := String.mk (List.replicate i c)

/-- Chain field `i` of `n`: the last field holds the literal `01`; every
earlier field is bound (with the identity callback) to the next one. -/
def chainF (i n : Nat) : TField :=
  if i + 1 = n then TField.mk (idxName 'c' i) (some (.sec 1)) (.num [1]) none
  else
    TField.mk (idxName 'c' i) (some (.sec 1)) (.num [])
      (some (TBind.mk i (fun bs => bs) (some (idxName 'c' (i + 1)))))

/-- A table whose fields form an acyclic chain of `n − 1` bindings. -/
def mkChain (n : Nat) : TTable := TTable.mk ((List.range n).map (fun i => chainF i n))

/-- Cycle field `i` of `n`: bound to field `(i + 1) % n`, value unset. -/
def cycF (i n : Nat) : TField :=
  TField.mk (idxName 'k' i) (some (.sec 1)) (.num [])
    (some (TBind.mk i (fun bs => bs) (some (idxName 'k' ((i + 1) % n)))))

/-- A table whose `n` bindings form one cycle. -/
def mkCycle (n : Nat) : TTable := TTable.mk ((List.range n).map (fun i => cycF i n))

/-- The evaluation stack contents after `j` steps around a cycle of
length `n`: the binding ids pushed so far. -/
def cstack (n j : Nat) : List Nat := (List.range j).map (· % n)

/-- Project a successful numeric evaluation result. -/
def okNum : Except EvalErr TVal → Option (List Nat)
  | .ok (.num bs) => some bs
  | _ => none

/-- The binding source name of a field, if any. -/
def fieldSrc (f : TField) : Option String :=
  match fbind f with
  | some b => bindSrc b
  | none => none

theorem idxName_inj (c : Char) {i j : Nat} (h : idxName c i = idxName c j) : i = j := by
  have h2 : List.replicate i c = List.replicate j c := congrArg String.data h
  have h3 := congrArg List.length h2
  simpa using h3

theorem idxName_ne_star (c : Char) (hc : c ≠ '*') (i : Nat) : ¬ (idxName c i = "*") := by
  intro h
  have h2 : List.replicate i c = ['*'] := congrArg String.data h
  cases i with
  | zero => simp at h2
  | succ i =>
    rw [List.replicate_succ] at h2
    simp only [List.cons.injEq] at h2
    exact hc h2.1

theorem idxName_beq (c : Char) (i j : Nat) :
    (idxName c i == idxName c j) = (i == j) := by
  by_cases h : i = j
  · subst h; simp
  · have h1 : ¬ (idxName c i = idxName c j) := fun he => h (idxName_inj c he)
    rw [Bool.eq_iff_iff]
    simp [h1, h]

theorem filter_map_comm {α β : Type} (f : α → β) (p : β → Bool) (l : List α) :
    (l.map f).filter p = (l.filter (fun a => p (f a))).map f := by
  induction l with
  | nil => rfl
  | cons a l ih =>
    simp only [List.map_cons, List.filter_cons]
    by_cases h : p (f a) = true
    · rw [if_pos h, if_pos h, List.map_cons, ih]
    · rw [if_neg h, if_neg h, ih]

theorem range_filter_single (j : Nat) :
    ∀ n, j < n → (List.range n).filter (fun i => i == j) = [j] := by
  intro n
  induction n with
  | zero => omega
  | succ n ih =>
    intro hj
    rw [List.range_succ, List.filter_append]
    by_cases h : j < n
    · rw [ih h]
      have hne : ¬ ((n == j) = true) := by simp; omega
      simp only [List.filter_cons, List.filter_nil, if_neg hne, List.append_nil]
    · have hjn : j = n := by omega
      subst hjn
      have h0 : (List.range j).filter (fun i => i == j) = [] := by
        rw [List.filter_eq_nil_iff]
        intro a ha
        have := List.mem_range.mp ha
        simp
        omega
      rw [h0]
      simp [List.filter_cons]

theorem fname_chainF (i n : Nat) : fname (chainF i n) = idxName 'c' i := by
  unfold chainF
  split_ifs <;> rfl

theorem chain_lookup (n j : Nat) (hj : j < n) :
    (tfields (mkChain n)).filter (fun f => fname f == idxName 'c' j) = [chainF j n] := by
  show ((List.range n).map (fun i => chainF i n)).filter _ = _
  rw [filter_map_comm]
  have hp : ∀ i : Nat, (fun a => (fname (chainF a n) == idxName 'c' j)) i = (i == j) := by
    intro i
    show (fname (chainF i n) == idxName 'c' j) = (i == j)
    rw [fname_chainF, idxName_beq]
  rw [List.filter_congr (fun i _ => hp i), range_filter_single j n hj]
  rfl

theorem fname_cycF (i n : Nat) : fname (cycF i n) = idxName 'k' i := rfl

theorem cycle_lookup (n j : Nat) (hj : j < n) :
    (tfields (mkCycle n)).filter (fun f => fname f == idxName 'k' j) = [cycF j n] := by
  show ((List.range n).map (fun i => cycF i n)).filter _ = _
  rw [filter_map_comm]
  have hp : ∀ i : Nat, (fun a => (fname (cycF a n) == idxName 'k' j)) i = (i == j) := by
    intro i
    show (fname (cycF i n) == idxName 'k' j) = (i == j)
    rw [fname_cycF, idxName_beq]
  rw [List.filter_congr (fun i _ => hp i), range_filter_single j n hj]
  rfl

theorem succ_mod (j n : Nat) : (j % n + 1) % n = (j + 1) % n := by
  conv_rhs => rw [← Nat.mod_add_div j n]
  rw [Nat.add_right_comm, Nat.add_mul_mod_self_left]

end T3

namespace T3

theorem chain_resolves_aux (n : Nat) :
    ∀ fuel i st, i < n → (∀ j, i ≤ j → j < n → ¬ j ∈ st) → 2 * (n - i) ≤ fuel →
      getVal (mkChain n) (chainF i n) st fuel = .ok (.num [1]) := by
  intro fuel
  induction fuel using Nat.strong_induction_on with
  | _ fuel ih =>
    intro i st hi hst hfuel
    obtain ⟨fuel', rfl⟩ : ∃ m, fuel = m + 1 := ⟨fuel - 1, by omega⟩
    by_cases hlast : i + 1 = n
    · simp only [chainF, if_pos hlast]
      simp [getVal, valueIsSet, fval, toIntB]
    · simp only [chainF, if_neg hlast]
      simp only [getVal]
      rw [if_neg (by simp [valueIsSet, fval, toIntB])]
      simp only [fbind, bindId, bindSrc, bindCb]
      have hcont : st.contains i = false := by
        rcases Bool.eq_false_or_eq_true (st.contains i) with h | h
        · exact absurd (List.mem_of_elem_eq_true h) (hst i le_rfl hi)
        · exact h
      rw [hcont]
      simp only [Bool.and_false, Bool.false_eq_true, if_false]
      rw [if_neg (idxName_ne_star 'c' (by decide) (i + 1))]
      obtain ⟨fuel'', rfl⟩ : ∃ m, fuel' = m + 1 := ⟨fuel' - 1, by omega⟩
      simp only [getattrT]
      rw [chain_lookup n (i + 1) (by omega)]
      have hrec : getVal (mkChain n) (chainF (i + 1) n) (st ++ [i]) fuel'' = .ok (.num [1]) := by
        apply ih fuel'' (by omega) (i + 1) (st ++ [i]) (by omega)
        · intro j hj1 hj2 hjmem
          rcases List.mem_append.mp hjmem with hm | hm
          · exact hst j (by omega) hj2 hm
          · have : j = i := by simpa using hm
            omega
        · omega
      dsimp only
      rw [hrec]
      rfl

/-- The acyclic-chain half: reading the head of a chain of `n − 1`
bindings (any `n ≥ 2`, in particular chains of more than 10 bindings)
resolves to the literal value without error. -/
theorem chain_resolves (n : Nat) (hn : 2 ≤ n) :
    getVal (mkChain n) (chainF 0 n) [] (2 * n + 2) = .ok (.num [1]) := by
  apply chain_resolves_aux n (2 * n + 2) 0 [] (by omega)
  · intro j _ _ hj
    simp at hj
  · omega

end T3

namespace T3

theorem cycle_detects_aux (n : Nat) (hn : 1 ≤ n) :
    ∀ d j fuel, max 11 n = j + d → 2 * d + 2 ≤ fuel →
      getVal (mkCycle n) (cycF (j % n) n) (cstack n j) fuel = .error .circular := by
  intro d
  induction d with
  | zero =>
    intro j fuel hL hf
    obtain ⟨fuel', rfl⟩ : ∃ m, fuel = m + 1 := ⟨fuel - 1, by omega⟩
    simp only [cycF, getVal]
    rw [if_neg (by simp [valueIsSet, fval, toIntB])]
    simp only [fbind, bindId]
    have hlen : (cstack n j).length = j := by simp [cstack]
    have hmem : (j % n) ∈ cstack n j := by
      have hjn : n ≤ j := by omega
      refine List.mem_map.mpr ⟨j - n, List.mem_range.mpr (by omega), ?_⟩
      show (j - n) % n = j % n
      conv_rhs => rw [show j = (j - n) + n by omega]
      rw [Nat.add_mod_right]
    have hgt : (cstack n j).length > 10 := by rw [hlen]; omega
    rw [if_pos (by simp [hgt, hmem])]
    rfl
  | succ d ihd =>
    intro j fuel hL hf
    obtain ⟨fuel', rfl⟩ : ∃ m, fuel = m + 1 := ⟨fuel - 1, by omega⟩
    simp only [cycF, getVal]
    rw [if_neg (by simp [valueIsSet, fval, toIntB])]
    simp only [fbind, bindId, bindSrc, bindCb]
    have hcond :
        (decide ((cstack n j).length > 10) && (cstack n j).contains (j % n)) = false := by
      by_cases hj10 : j ≤ 10
      · have hng : ¬ ((cstack n j).length > 10) := by simp [cstack]; omega
        simp [hng]
      · have hjn : j < n := by omega
        have hnot : ¬ ((j % n) ∈ cstack n j) := by
          rw [Nat.mod_eq_of_lt hjn]
          intro hmem
          obtain ⟨m, hm1, hm2⟩ := List.mem_map.mp hmem
          have hmj : m < j := List.mem_range.mp hm1
          have hle : m % n ≤ m := Nat.mod_le m n
          omega
        have hcf : (cstack n j).contains (j % n) = false := by
          rcases Bool.eq_false_or_eq_true ((cstack n j).contains (j % n)) with h | h
          · exact absurd (List.mem_of_elem_eq_true h) hnot
          · exact h
        rw [hcf, Bool.and_false]
    rw [hcond]
    simp only [Bool.false_eq_true, if_false]
    rw [if_neg (idxName_ne_star 'k' (by decide) _)]
    obtain ⟨fuel'', rfl⟩ : ∃ m, fuel' = m + 1 := ⟨fuel' - 1, by omega⟩
    simp only [getattrT]
    rw [cycle_lookup n ((j % n + 1) % n) (Nat.mod_lt _ (by omega))]
    dsimp only
    have hst : cstack n j ++ [j % n] = cstack n (j + 1) := by
      simp [cstack, List.range_succ]
    rw [succ_mod, hst, ihd (j + 1) fuel'' (by omega) (by omega)]
    rfl

/-- The cycle half: reading a field of a pure binding cycle of any
length `n ≥ 1` whose values are all unset raises the circular-binding
error (given enough fuel for the evaluation to run its course). -/
theorem cycle_detects (n : Nat) (hn : 1 ≤ n) (fuel : Nat)
    (hf : 2 * max 11 n + 2 ≤ fuel) :
    getVal (mkCycle n) (cycF 0 n) [] fuel = .error .circular := by
  have h := cycle_detects_aux n hn (max 11 n) 0 fuel (by omega) (by omega)
  simpa [cstack, Nat.zero_mod] using h

end T3

namespace T3

/-- The two mutually-bound fields of the C3 counterexample: `a` is bound
(via a length callback) to `b`, `b` is bound to `a`, and `b` carries the
set value `05`. -/
def cyc2A : TField :=
  TField.mk "a" (some (.sec 1)) (.num [])
    (some (TBind.mk 0 (fun bs => [bs.length]) (some "b")))

/-- Companion field of `cyc2A`; its value is set. -/
def cyc2B : TField :=
  TField.mk "b" (some (.sec 1)) (.num [5])
    (some (TBind.mk 1 (fun bs => [bs.length]) (some "a")))

/-- A table whose binding graph is the cycle `a → b → a`. -/
def cyc2T : TTable := TTable.mk [cyc2A, cyc2B]

/-- **C3, counterexample.**  Field `a` participates in a binding cycle
(`a` is bound to `b` and `b` back to `a`), yet reading `a` resolves
without error, because `b`'s *value* is set: evaluation never travels
around the cycle.  The claim as stated — reading any field on a binding
cycle raises the circular-binding error — is therefore false. -/
theorem c3_counterexample :
    fieldSrc cyc2A = some (some (fname cyc2B)) ∧
    fieldSrc cyc2B = some (some (fname cyc2A)) ∧
    okNum (getVal cyc2T cyc2A [] 30) = some [1] := by
  refine ⟨rfl, rfl, ?_⟩
  decide

/-- **C3 (amended).**  Reading a field that participates in a binding
cycle raises the circular-binding `RuntimeError` *provided the values
along the cycle are unset* (so that evaluation actually revisits a
binding at stack depth > 10): this holds for every pure cycle of `n ≥ 1`
unset bindings.  Reading the head of an acyclic chain of bindings — for
every chain length, including chains of more than 10 bindings — resolves
to a value without error. -/
theorem c3_amended :
    (∀ n, 1 ≤ n → ∀ fuel, 2 * max 11 n + 2 ≤ fuel →
      getVal (mkCycle n) (cycF 0 n) [] fuel = .error .circular) ∧
    (∀ n, 2 ≤ n → getVal (mkChain n) (chainF 0 n) [] (2 * n + 2) = .ok (.num [1])) :=
  ⟨fun n hn fuel hf => cycle_detects n hn fuel hf, fun n hn => chain_resolves n hn⟩

/-- Witness for `c3_amended`: a 2-cycle of unset bindings errors, and a
chain of 11 bindings (12 fields) resolves. -/
theorem c3_amended_witness :
    getVal (mkCycle 2) (cycF 0 2) [] 26 = .error .circular ∧
    okNum (getVal (mkChain 12) (chainF 0 12) [] 26) = some [1] := by
  constructor
  · exact c3_amended.1 2 (by decide) 26 (by decide)
  · rw [c3_amended.2 12 (by decide)]
    rfl

end T3

namespace T3

/-! ## Claim C2: the Any field inside a table

The reversed scan in `T3PatternTable.match` tries the *largest* prefix
for the `Any` field first.  The characterization below is proved for
remaining fields free of `Function` patterns (`patViewFree`), whose
match outcome cannot depend on the values the scan assigns to fields
during failed attempts; a table used *as* a pattern is view-free, since
it matches against its own copy. -/

mutual
/-- No `T3PatternFunction` occurs at the top level of this pattern
(inside `Alt`/`Prefixed` nesting); a nested table pattern matches
against its own fields and is always safe. -/
def patViewFree : HPat → Bool
  | .sec _ => true
  | .lit _ => true
  | .anyP => true
  | .alt ps => patsViewFree ps
  | .prefixed a b => patViewFree a && patViewFree b
  | .fnP _ => false
  | .ptable _ => true
/-- `patViewFree` over a list of alternatives. -/
def patsViewFree : List HPat → Bool
  | [] => true
  | p :: ps => patViewFree p && patsViewFree ps
end

/-- All the fields' patterns are view-free. -/
def fieldsViewFree (fs : List TField) : Bool :=
  fs.all (fun f =>
    match fpat f with
    | some p => patViewFree p
    | none => true)

theorem fpat_setVal (f : TField) (v : TVal) : fpat (setVal f v) = fpat f := by
  cases f; rfl

theorem patsViewFree_mem {ps : List HPat} (h : patsViewFree ps = true) :
    ∀ p ∈ ps, patViewFree p = true := by
  induction ps with
  | nil => intro p hp; simp at hp
  | cons q qs ih =>
    intro p hp
    rw [patsViewFree, Bool.and_eq_true] at h
    rcases List.mem_cons.mp hp with rfl | hp2
    · exact h.1
    · exact ih h.2 p hp2

theorem altRun_congr (f g : HPat → PMatch) (data : List Nat) :
    ∀ ps : List HPat, (∀ p ∈ ps, f p = g p) → altRun f data ps = altRun g data ps := by
  intro ps
  induction ps with
  | nil => intro h; rfl
  | cons p ps ih =>
    intro h
    simp only [altRun]
    rw [h p (by simp), ih (fun q hq => h q (by simp [hq]))]

/-- A view-free pattern matches identically under any two views. -/
theorem hpatMatch_view_indep :
    ∀ (fuel : Nat) (P : HPat) (data : List Nat) (v₁ v₂ : String → Option (List Nat)),
      patViewFree P = true → hpatMatch v₁ P data fuel = hpatMatch v₂ P data fuel := by
  intro fuel
  induction fuel with
  | zero => intro P data v₁ v₂ h; rfl
  | succ fuel ih =>
    intro P data v₁ v₂ h
    cases P with
    | sec k => rfl
    | lit bs => rfl
    | anyP => rfl
    | alt ps =>
      simp only [hpatMatch]
      apply altRun_congr
      intro p hp
      exact ih p data v₁ v₂ (patsViewFree_mem (by simpa [patViewFree] using h) p hp)
    | prefixed a b =>
      rw [patViewFree, Bool.and_eq_true] at h
      simp only [hpatMatch]
      rw [ih a data v₁ v₂ h.1, ih b data v₁ v₂ h.2]
    | fnP f => simp [patViewFree] at h
    | ptable t => rfl

theorem anyScan_pats (att : List TField → List Nat → (List TField × PMatch))
    (f : TField) (data : List Nat)
    (hatt : ∀ q d, (att q d).1.map fpat = q.map fpat) :
    ∀ k q, (anyScan att f data q k).1.map fpat = (f :: q).map fpat := by
  intro k
  induction k with
  | zero => intro q; rfl
  | succ k ih =>
    intro q
    simp only [anyScan]
    by_cases hm : (att q (data.drop k)).2.fail = true
    · rw [if_pos hm, ih ((att q (data.drop k)).1)]
      simp only [List.map_cons]
      rw [hatt q (data.drop k)]
    · rw [if_neg hm]
      simp only [List.map_cons, fpat_setVal]
      rw [hatt q (data.drop k)]

/-- The sequential matcher leaves every field's pattern unchanged. -/
theorem seqMatch_pats :
    ∀ (fuel : Nat) (done todo : List TField) (data : List Nat),
      (seqMatch done todo data fuel).1.map fpat = todo.map fpat := by
  intro fuel
  induction fuel with
  | zero => intro done todo data; rfl
  | succ fuel ih =>
    intro done todo data
    match todo with
    | [] => rfl
    | [f] =>
      simp only [seqMatch]
      cases hp : fpat f with
      | none => rfl
      | some P =>
        dsimp only
        split
        · rfl
        · simp [fpat_setVal]
    | f :: g :: fs =>
      simp only [seqMatch]
      cases hp : fpat f with
      | none => rfl
      | some P =>
        dsimp only
        cases P
        case anyP =>
          exact anyScan_pats _ f data (fun q d => ih (f :: done) q d) data.length (g :: fs)
        all_goals
          dsimp only
          split
          · rfl
          · split
            · split
              · simp [fpat_setVal, ih]
              · simp [fpat_setVal, ih]
            · simp [fpat_setVal, ih]

end T3

namespace T3

theorem fieldsViewFree_pats :
    ∀ {t₁ t₂ : List TField}, t₁.map fpat = t₂.map fpat →
      fieldsViewFree t₁ = fieldsViewFree t₂ := by
  intro t₁
  induction t₁ with
  | nil =>
    intro t₂ h
    cases t₂ with
    | nil => rfl
    | cons g gs => simp at h
  | cons f fs ih =>
    intro t₂ h
    cases t₂ with
    | nil => simp at h
    | cons g gs =>
      simp only [List.map_cons, List.cons.injEq] at h
      simp only [fieldsViewFree, List.all_cons]
      rw [h.1, show fs.all _ = gs.all _ from ih h.2]

theorem anyScan_indep
    (att₁ att₂ : List TField → List Nat → (List TField × PMatch))
    (f₁ f₂ : TField) (data : List Nat) (Q : List TField)
    (hpair : ∀ q₁ q₂ d, q₁.map fpat = Q.map fpat → q₂.map fpat = Q.map fpat →
      (att₁ q₁ d).2 = (att₂ q₂ d).2)
    (hp₁ : ∀ q d, (att₁ q d).1.map fpat = q.map fpat)
    (hp₂ : ∀ q d, (att₂ q d).1.map fpat = q.map fpat) :
    ∀ k q₁ q₂, q₁.map fpat = Q.map fpat → q₂.map fpat = Q.map fpat →
      (anyScan att₁ f₁ data q₁ k).2 = (anyScan att₂ f₂ data q₂ k).2 := by
  intro k
  induction k with
  | zero => intro q₁ q₂ h₁ h₂; rfl
  | succ k ih =>
    intro q₁ q₂ h₁ h₂
    simp only [anyScan]
    have he := hpair q₁ q₂ (data.drop k) h₁ h₂
    by_cases hm : (att₁ q₁ (data.drop k)).2.fail = true
    · rw [if_pos hm, if_pos (by rw [← he]; exact hm)]
      exact ih _ _ (by rw [hp₁]; exact h₁) (by rw [hp₂]; exact h₂)
    · rw [if_neg hm, if_neg (by rw [← he]; exact hm)]
      simp only
      rw [he]

end T3

namespace T3

/-- The non-`Any` multi-field step of `seqMatch`, abstracted over the
two views: with a view-free head pattern the produced match is the same
on both sides. -/
theorem seqMatch_step_indep (fuel : Nat) (P : HPat) (hfree : patViewFree P = true)
    (v₁ v₂ : String → Option (List Nat)) (data : List Nat)
    (done₁ done₂ q₁ q₂ : List TField) (f₁ f₂ : TField)
    (hq : q₁.map fpat = q₂.map fpat) (hvft : fieldsViewFree q₁ = true)
    (ih : ∀ (d₁ d₂ t₁ t₂ : List TField) (dd : List Nat),
      t₁.map fpat = t₂.map fpat → fieldsViewFree t₁ = true →
      (seqMatch d₁ t₁ dd fuel).2 = (seqMatch d₂ t₂ dd fuel).2) :
    (let m := hpatMatch v₁ P data fuel
     if m.fail then ((f₁ :: q₁ : List TField), m)
     else
       let f' := setVal f₁ m.value
       let r := seqMatch (f' :: done₁) q₁ m.rest fuel
       if r.2.fail then
         if isNoneV r.2.value then (f' :: r.1, { r.2 with value := m.value })
         else (f' :: r.1,
           { r.2 with value := .num (data.take (tvalLen m.value + tvalLen r.2.value)) })
       else (f' :: r.1,
         { r.2 with value := .num (data.take (tvalLen m.value + tvalLen r.2.value)) })).2 =
    (let m := hpatMatch v₂ P data fuel
     if m.fail then ((f₂ :: q₂ : List TField), m)
     else
       let f' := setVal f₂ m.value
       let r := seqMatch (f' :: done₂) q₂ m.rest fuel
       if r.2.fail then
         if isNoneV r.2.value then (f' :: r.1, { r.2 with value := m.value })
         else (f' :: r.1,
           { r.2 with value := .num (data.take (tvalLen m.value + tvalLen r.2.value)) })
       else (f' :: r.1,
         { r.2 with value := .num (data.take (tvalLen m.value + tvalLen r.2.value)) })).2 := by
  have hv : hpatMatch v₁ P data fuel = hpatMatch v₂ P data fuel :=
    hpatMatch_view_indep fuel P data v₁ v₂ hfree
  dsimp only
  rw [hv]
  by_cases hm : (hpatMatch v₂ P data fuel).fail = true
  · rw [if_pos hm, if_pos hm]
  · rw [if_neg hm, if_neg hm]
    have hr :
        (seqMatch (setVal f₁ (hpatMatch v₂ P data fuel).value :: done₁) q₁
          (hpatMatch v₂ P data fuel).rest fuel).2 =
        (seqMatch (setVal f₂ (hpatMatch v₂ P data fuel).value :: done₂) q₂
          (hpatMatch v₂ P data fuel).rest fuel).2 :=
      ih _ _ q₁ q₂ _ hq hvft
    rw [hr]
    by_cases hf2 :
        (seqMatch (setVal f₂ (hpatMatch v₂ P data fuel).value :: done₂) q₂
          (hpatMatch v₂ P data fuel).rest fuel).2.fail = true
    · rw [if_pos hf2, if_pos hf2]
      by_cases hn :
          isNoneV (seqMatch (setVal f₂ (hpatMatch v₂ P data fuel).value :: done₂) q₂
            (hpatMatch v₂ P data fuel).rest fuel).2.value = true
      · rw [if_pos hn, if_pos hn]
      · rw [if_neg hn, if_neg hn]
    · rw [if_neg hf2, if_neg hf2]

end T3

namespace T3

/-- On view-free fields, the outcome of the sequential matcher depends
only on the fields' patterns — not on their current values nor on the
already-processed fields (which enter the match only through the view
handed to `Function` patterns). -/
theorem seqMatch_indep :
    ∀ (fuel : Nat) (done₁ done₂ todo₁ todo₂ : List TField) (data : List Nat),
      todo₁.map fpat = todo₂.map fpat →
      fieldsViewFree todo₁ = true →
      (seqMatch done₁ todo₁ data fuel).2 = (seqMatch done₂ todo₂ data fuel).2 := by
  intro fuel
  induction fuel with
  | zero => intro _ _ _ _ _ _ _; rfl
  | succ fuel ih =>
    intro done₁ done₂ todo₁ todo₂ data hp hvf
    match todo₁, todo₂ with
    | [], [] => rfl
    | [], _ :: _ => simp at hp
    | _ :: _, [] => simp at hp
    | [f₁], _ :: _ :: _ => simp at hp
    | _ :: _ :: _, [f₂] => simp at hp
    | [f₁], [f₂] =>
      simp only [List.map_cons, List.map_nil, List.cons.injEq] at hp
      simp only [seqMatch]
      cases hq : fpat f₁ with
      | none =>
        have hq₂ : fpat f₂ = none := by rw [← hp.1]; exact hq
        rw [hq₂]
      | some P =>
        have hq₂ : fpat f₂ = some P := by rw [← hp.1]; exact hq
        rw [hq₂]
        dsimp only
        have hfree : patViewFree P = true := by
          simp only [fieldsViewFree, List.all_cons, List.all_nil, Bool.and_true] at hvf
          rw [hq] at hvf
          exact hvf
        rw [hpatMatch_view_indep fuel P data
          (fun nm => match getattrT (TTable.mk (done₁.reverse ++ [f₁])) nm [] fuel with
            | .ok (.num bs) => some bs
            | _ => none)
          (fun nm => match getattrT (TTable.mk (done₂.reverse ++ [f₂])) nm [] fuel with
            | .ok (.num bs) => some bs
            | _ => none) hfree]
        by_cases hm :
            (hpatMatch (fun nm =>
              match getattrT (TTable.mk (done₂.reverse ++ [f₂])) nm [] fuel with
              | .ok (.num bs) => some bs
              | _ => none) P data fuel).fail = true
        · rw [if_pos hm, if_pos hm]
        · rw [if_neg hm, if_neg hm]
    | f₁ :: g₁ :: fs₁, f₂ :: g₂ :: fs₂ =>
      simp only [List.map_cons, List.cons.injEq] at hp
      obtain ⟨hpf, hpg, hpfs⟩ := hp
      have hptail : (g₁ :: fs₁).map fpat = (g₂ :: fs₂).map fpat := by
        simp [hpg, hpfs]
      have hvff : (match fpat f₁ with | some p => patViewFree p | none => true) = true := by
        simp only [fieldsViewFree, List.all_cons, Bool.and_eq_true] at hvf
        exact hvf.1
      have hvft : fieldsViewFree (g₁ :: fs₁) = true := by
        simp only [fieldsViewFree, List.all_cons, Bool.and_eq_true] at hvf
        simp only [fieldsViewFree, List.all_cons, Bool.and_eq_true]
        exact hvf.2
      simp only [seqMatch]
      cases hq : fpat f₁ with
      | none =>
        have hq₂ : fpat f₂ = none := by rw [← hpf]; exact hq
        rw [hq₂]
      | some P =>
        have hq₂ : fpat f₂ = some P := by rw [← hpf]; exact hq
        rw [hq₂]
        dsimp only
        rw [hq] at hvff
        cases P
        case anyP =>
          exact anyScan_indep _ _ f₁ f₂ data (g₁ :: fs₁)
            (fun q₁ q₂ d hq₁ hq₂ =>
              ih (f₁ :: done₁) (f₂ :: done₂) q₁ q₂ d (hq₁.trans hq₂.symm)
                (by rw [fieldsViewFree_pats hq₁]; exact hvft))
            (fun q d => seqMatch_pats fuel (f₁ :: done₁) q d)
            (fun q d => seqMatch_pats fuel (f₂ :: done₂) q d)
            data.length (g₁ :: fs₁) (g₂ :: fs₂) rfl hptail.symm
        case sec k =>
          exact seqMatch_step_indep fuel (.sec k) hvff _ _ data done₁ done₂ _ _ f₁ f₂ hptail hvft ih
        case lit bs =>
          exact seqMatch_step_indep fuel (.lit bs) hvff _ _ data done₁ done₂ _ _ f₁ f₂ hptail hvft ih
        case alt ps =>
          exact seqMatch_step_indep fuel (.alt ps) hvff _ _ data done₁ done₂ _ _ f₁ f₂ hptail hvft ih
        case prefixed a b =>
          exact seqMatch_step_indep fuel (.prefixed a b) hvff _ _ data done₁ done₂ _ _ f₁ f₂ hptail hvft ih
        case fnP fn => simp [patViewFree] at hvff
        case ptable t =>
          exact seqMatch_step_indep fuel (.ptable t) hvff _ _ data done₁ done₂ _ _ f₁ f₂ hptail hvft ih

end T3

namespace T3

/-- The reverse scan, characterized: a successful scan assigns to the
`Any` field `data[:j]` for the *largest* `j < len(data)` at which the
remaining fields match `data[j:]` — every larger index was tried first
and failed.  `c` is the canonical outcome of matching the remaining
fields (independent of their threaded values). -/
theorem anyScan_spec (att : List TField → List Nat → (List TField × PMatch))
    (f : TField) (data : List Nat) (Q : List TField) (c : List Nat → PMatch)
    (hpres : ∀ q d, (att q d).1.map fpat = q.map fpat)
    (heq : ∀ q d, q.map fpat = Q.map fpat → (att q d).2 = c d) :
    ∀ k q, q.map fpat = Q.map fpat →
      (anyScan att f data q k).2.fail = false →
      ∃ j, j < k ∧
        (anyScan att f data q k).1.head? = some (setVal f (.num (data.take j))) ∧
        (c (data.drop j)).fail = false ∧
        (∀ i, j < i → i < k → (c (data.drop i)).fail = true) := by
  intro k
  induction k with
  | zero => intro q hq h; simp [anyScan] at h
  | succ k ih =>
    intro q hq h
    simp only [anyScan] at h ⊢
    by_cases hm : (att q (data.drop k)).2.fail = true
    · rw [if_pos hm] at h ⊢
      obtain ⟨j, hj1, hj2, hj3, hj4⟩ :=
        ih ((att q (data.drop k)).1) (by rw [hpres]; exact hq) h
      refine ⟨j, by omega, hj2, hj3, ?_⟩
      intro i hi1 hi2
      by_cases hik : i = k
      · subst hik
        rw [← heq q (data.drop i) hq]
        exact hm
      · exact hj4 i hi1 (by omega)
    · rw [if_neg hm] at h ⊢
      refine ⟨k, by omega, rfl, ?_, ?_⟩
      · rw [← heq q (data.drop k) hq]
        simpa using hm
      · intro i hi1 hi2; omega

/-- Project the populated table out of a match result. -/
def matchTbl : PMatch → Option TTable :=
  fun m => match m.value with | .tbl t => some t | _ => none

/-- The numeric values of a table's fields, in order. -/
def fieldNums (t : TTable) : List (Option (List Nat)) :=
  (tfields t).map (fun f => match fval f with | .num bs => some bs | _ => none)

/-- A two-field table `[Any, Section(1)]`. -/
def anyTwoT : TTable :=
  TTable.mk
    [TField.mk "D" (some .anyP) (.num []) none,
     TField.mk "S" (some (.sec 1)) (.num []) none]

/-- **C2, counterexample.**  On `AB CD`, the table `[Any, Section(1)]`
assigns `AB` to the `Any` field.  Yet the *empty* prefix also permits
the remaining field to match the rest (third conjunct: `Section(1)`
succeeds on `AB CD` itself), so the assigned prefix is not the shortest
one — the scan `for k in range(len(data)-1, -1, -1)` tries the largest
prefix first. -/
theorem c2_counterexample :
    (tableMatch anyTwoT [0xAB, 0xCD] 10).fail = false ∧
    (matchTbl (tableMatch anyTwoT [0xAB, 0xCD] 10)).map fieldNums =
      some [some [0xAB], some [0xCD]] ∧
    (seqMatch [] [TField.mk "S" (some (.sec 1)) (.num []) none] [0xAB, 0xCD] 9).2.fail
      = false ∧
    [0xAB] ≠ ([] : List Nat) := by
  refine ⟨by decide, by decide, by decide, by decide⟩

/-- **C2 (amended).**  For a table whose `Any` field is followed by
further (view-free) fields, a successful match assigns to `Any` the
*longest* prefix `data[:j]` (with `j < len(data)`, never the whole
input) such that the remaining fields match `data[j:]`: the remaining
fields succeed on `data[j:]`, and fail on `data[i:]` for every larger
`i < len(data)`. -/
theorem c2_amended (anyF g : TField) (fs done : List TField) (data : List Nat) (fuel : Nat)
    (hpa : fpat anyF = some .anyP)
    (hvf : fieldsViewFree (g :: fs) = true)
    (hok : (seqMatch done (anyF :: g :: fs) data (fuel + 1)).2.fail = false) :
    ∃ j, j < data.length ∧
      (seqMatch done (anyF :: g :: fs) data (fuel + 1)).1.head? =
        some (setVal anyF (.num (data.take j))) ∧
      (seqMatch [] (g :: fs) (data.drop j) fuel).2.fail = false ∧
      ∀ i, j < i → i < data.length →
        (seqMatch [] (g :: fs) (data.drop i) fuel).2.fail = true := by
  have hstep : seqMatch done (anyF :: g :: fs) data (fuel + 1) =
      anyScan (fun q' d' => seqMatch (anyF :: done) q' d' fuel) anyF data
        (g :: fs) data.length := by
    simp only [seqMatch]
    rw [hpa]
  rw [hstep] at hok ⊢
  exact anyScan_spec _ anyF data (g :: fs)
    (fun d => (seqMatch [] (g :: fs) d fuel).2)
    (fun q d => seqMatch_pats fuel (anyF :: done) q d)
    (fun q d hq =>
      seqMatch_indep fuel (anyF :: done) [] q (g :: fs) d hq
        (by rw [fieldsViewFree_pats hq]; exact hvf))
    data.length (g :: fs) rfl hok

/-- Witness for `c2_amended` on `[Any, Section(1)]` and data `AB CD`. -/
theorem c2_amended_witness :
    ∃ j, j < ([0xAB, 0xCD] : List Nat).length ∧
      (seqMatch [] [TField.mk "D" (some .anyP) (.num []) none,
                    TField.mk "S" (some (.sec 1)) (.num []) none] [0xAB, 0xCD] 10).1.head? =
        some (setVal (TField.mk "D" (some .anyP) (.num []) none)
          (.num (([0xAB, 0xCD] : List Nat).take j))) ∧
      (seqMatch [] [TField.mk "S" (some (.sec 1)) (.num []) none]
        (([0xAB, 0xCD] : List Nat).drop j) 9).2.fail = false ∧
      ∀ i, j < i → i < ([0xAB, 0xCD] : List Nat).length →
        (seqMatch [] [TField.mk "S" (some (.sec 1)) (.num []) none]
          (([0xAB, 0xCD] : List Nat).drop i) 9).2.fail = true :=
  c2_amended (TField.mk "D" (some .anyP) (.num []) none)
    (TField.mk "S" (some (.sec 1)) (.num []) none) [] [] [0xAB, 0xCD] 9
    rfl (by decide) (by decide)

end T3

namespace T3

/-! ## Claim C1: match/synthesize round trip -/

mutual
/-- The bytes a value contributes to synthesis when no binding fires:
`None` nothing, a number its bytes, a table its fields' contributions. -/
def flattenVal : TVal → List Nat
  | .vnone => []
  | .num bs => bs
  | .tbl t => flattenT t
  | .lst vs => flattenVals vs
/-- `flattenVal` over list members. -/
def flattenVals : List TVal → List Nat
  | [] => []
  | v :: vs => flattenVal v ++ flattenVals vs
/-- `flattenVal` of a whole table. -/
def flattenT : TTable → List Nat
  | .mk fs => flattenFields fs
/-- In-order concatenation of the fields' contributions. -/
def flattenFields : List TField → List Nat
  | [] => []
  | .mk _ _ v _ :: fs => flattenVal v ++ flattenFields fs
end

mutual
/-- The condition under which `T3Field.get_value` returns the stored
value without firing a binding: a bound field must hold a value with
nonzero integer (recall from `valueIsSet` that a zero value counts as
unset).  Unbound or `None`-valued fields are always fine; nested tables
are checked recursively; list values do not arise from matching. -/
def synthOKField : TField → Bool
  | .mk _ _ v b =>
    match v with
    | .vnone => true
    | .num bs => b.isNone || (toIntB bs != 0)
    | .tbl t => synthOKT t
    | .lst _ => false
/-- `synthOKField` for every field of the table, recursively. -/
def synthOKT : TTable → Bool
  | .mk fs => synthOKFields fs
/-- `synthOKField` over a field list. -/
def synthOKFields : List TField → Bool
  | [] => true
  | f :: fs => synthOKField f && synthOKFields fs
end

mutual
/-- Nesting height of a value (for fuel bounds). -/
def hV : TVal → Nat
  | .vnone => 0
  | .num _ => 0
  | .lst _ => 0
  | .tbl t => hT t
/-- Nesting height of a table. -/
def hT : TTable → Nat
  | .mk fs => hFields fs + 1
/-- Maximum nesting height over a field list. -/
def hFields : List TField → Nat
  | [] => 0
  | .mk _ _ v _ :: fs => max (hV v) (hFields fs)
end

theorem fval_setVal (f : TField) (v : TVal) : fval (setVal f v) = v := by
  cases f; rfl

theorem isNoneV_eq_vnone : ∀ {v : TVal}, isNoneV v = true → v = .vnone := by
  intro v h
  cases v with
  | vnone => rfl
  | num bs => simp [isNoneV] at h
  | tbl t => simp [isNoneV] at h
  | lst vs => simp [isNoneV] at h

theorem mapM_ok {α β : Type} (f : α → Except EvalErr β) (g : α → β) :
    ∀ l : List α, (∀ x ∈ l, f x = .ok (g x)) → l.mapM f = .ok (l.map g) := by
  intro l
  induction l with
  | nil => intro h; rfl
  | cons a l ihl =>
    intro h
    rw [List.mapM_cons, h a (by simp), ihl (fun x hx => h x (by simp [hx]))]
    rfl

end T3

namespace T3

theorem altRun_flatten (f : HPat → PMatch) (data : List Nat)
    (hf : ∀ p, (f p).fail = false → flattenVal (f p).value ++ (f p).rest = data) :
    ∀ ps, (altRun f data ps).fail = false →
      flattenVal (altRun f data ps).value ++ (altRun f data ps).rest = data := by
  intro ps
  induction ps with
  | nil => intro h; simp [altRun] at h
  | cons p ps ihp =>
    intro h
    simp only [altRun] at h ⊢
    by_cases hm : (f p).fail = true
    · rw [if_pos hm] at h ⊢
      exact ihp h
    · rw [if_neg hm] at h ⊢
      exact hf p (by simpa using hm)

theorem anyScan_flatten (att : List TField → List Nat → (List TField × PMatch))
    (f : TField) (data : List Nat)
    (hatt : ∀ q d, (att q d).2.fail = false →
      flattenFields (att q d).1 ++ (att q d).2.rest = d) :
    ∀ k q, (anyScan att f data q k).2.fail = false →
      flattenFields (anyScan att f data q k).1 ++ (anyScan att f data q k).2.rest = data := by
  intro k
  induction k with
  | zero => intro q h; simp [anyScan] at h
  | succ k ih =>
    intro q h
    simp only [anyScan] at h ⊢
    by_cases hm : (att q (data.drop k)).2.fail = true
    · rw [if_pos hm] at h ⊢
      exact ih _ h
    · rw [if_neg hm] at h ⊢
      have hd := hatt q (data.drop k) (by simpa using hm)
      cases f with
      | mk nm p v b =>
        show (data.take k ++ flattenFields (att _ (data.drop k)).1) ++ _ = data
        rw [List.append_assoc, hd]
        exact List.take_append_drop k data

end T3

namespace T3

theorem seqMatch_length (fuel : Nat) (done todo : List TField) (data : List Nat) :
    (seqMatch done todo data fuel).1.length = todo.length := by
  have h := congrArg List.length (seqMatch_pats fuel done todo data)
  simpa using h

theorem flattenFields_cons (f : TField) (fs : List TField) :
    flattenFields (f :: fs) = flattenVal (fval f) ++ flattenFields fs := by
  cases f; rfl

theorem mergeFields_flatten :
    ∀ (full repl : List TField),
      (full.filter (fun f => !(isNoneV (fval f)))).length = repl.length →
      flattenFields (mergeFields full repl) = flattenFields repl := by
  intro full
  induction full with
  | nil =>
    intro repl h
    cases repl with
    | nil => rfl
    | cons r rs => simp at h
  | cons f fs ihm =>
    intro repl h
    simp only [mergeFields]
    by_cases hn : isNoneV (fval f) = true
    · rw [if_pos hn, flattenFields_cons, isNoneV_eq_vnone hn]
      show flattenVal TVal.vnone ++ _ = _
      rw [show flattenVal TVal.vnone = [] from rfl, List.nil_append]
      apply ihm
      rw [List.filter_cons, if_neg (by simp [hn])] at h
      exact h
    · rw [if_neg hn]
      rw [List.filter_cons, if_pos (by simp [hn])] at h
      cases repl with
      | nil => simp at h
      | cons r rs =>
        simp only [List.length_cons, Nat.add_right_cancel_iff] at h
        rw [flattenFields_cons r rs, flattenFields_cons r (mergeFields fs rs), ihm rs h]

end T3

namespace T3

/-- Every successful match consumes a prefix: the flattened value
followed by the rest reassembles the input, simultaneously for single
patterns, field sequences and whole tables. -/
theorem match_flatten (fuel : Nat) :
    (∀ (view : String → Option (List Nat)) (P : HPat) (data : List Nat),
      (hpatMatch view P data fuel).fail = false →
      flattenVal (hpatMatch view P data fuel).value ++ (hpatMatch view P data fuel).rest
        = data) ∧
    (∀ (done todo : List TField) (data : List Nat),
      (seqMatch done todo data fuel).2.fail = false →
      flattenFields (seqMatch done todo data fuel).1 ++ (seqMatch done todo data fuel).2.rest
        = data) ∧
    (∀ (t : TTable) (data : List Nat),
      (tableMatch t data fuel).fail = false →
      flattenVal (tableMatch t data fuel).value ++ (tableMatch t data fuel).rest = data) := by
  induction fuel using Nat.strong_induction_on with
  | _ fuel ih =>
    cases fuel with
    | zero =>
      refine ⟨fun _ _ _ h => by simp [hpatMatch] at h,
              fun _ _ _ h => by simp [seqMatch] at h,
              fun _ _ h => by simp [tableMatch] at h⟩
    | succ fuel =>
      have ihP := (ih fuel (by omega)).1
      have ihS := (ih fuel (by omega)).2.1
      have ihT := (ih fuel (by omega)).2.2
      refine ⟨?_, ?_, ?_⟩
      · intro view P data h
        cases P with
        | sec k =>
          simp only [hpatMatch] at h ⊢
          by_cases hk : ((data.take k).length == k) = true
          · rw [if_pos hk] at h ⊢
            exact List.take_append_drop k data
          · rw [if_neg hk] at h
            simp at h
        | lit bs =>
          simp only [hpatMatch] at h ⊢
          by_cases hk : eqPyB (data.take bs.length) bs = true
          · rw [if_pos hk] at h ⊢
            exact List.take_append_drop _ data
          · rw [if_neg hk] at h
            simp at h
        | anyP =>
          simp only [hpatMatch]
          show data ++ [] = data
          simp
        | alt ps =>
          simp only [hpatMatch] at h ⊢
          exact altRun_flatten _ data (fun p hp => ihP view p data hp) ps h
        | prefixed a b =>
          simp only [hpatMatch] at h ⊢
          by_cases hm : (hpatMatch view a data fuel).fail = true
          · rw [if_pos hm] at h
            rw [hm] at h
            simp at h
          · rw [if_neg hm] at h ⊢
            exact ihP view b data h
        | fnP f =>
          simp only [hpatMatch] at h ⊢
          exact ihP view (f view data) data h
        | ptable t =>
          simp only [hpatMatch] at h ⊢
          exact ihT t data h
      · intro done todo data h
        match todo with
        | [] => simp [seqMatch] at h
        | [f] =>
          simp only [seqMatch] at h ⊢
          cases hcond : fpat f with
          | none =>
            simp only [hcond] at h
            simp at h
          | some P =>
            simp only [hcond] at h ⊢
            split at h
            next hm =>
              dsimp only at h
              rw [hm] at h
              simp at h
            next hm =>
              dsimp only at h
              rw [if_neg hm]
              rw [flattenFields_cons, fval_setVal]
              rw [show flattenFields ([] : List TField) = [] from rfl, List.append_nil]
              exact ihP _ P data h
        | f :: g :: fs =>
          simp only [seqMatch] at h ⊢
          cases hcond : fpat f with
          | none =>
            simp only [hcond] at h
            simp at h
          | some P =>
            simp only [hcond] at h ⊢
            cases P
            case anyP =>
              exact anyScan_flatten _ f data
                (fun q d hq => ihS (f :: done) q d hq) data.length (g :: fs) h
            all_goals split at h
            all_goals first
              | (next heq => exact HPat.noConfusion heq)
              | (split
                 · next hm =>
                     rw [if_pos hm] at h
                     try dsimp only at h
                     rw [hm] at h
                     simp at h
                 · next hm =>
                     rw [if_neg hm] at h
                     split
                     · next hr =>
                         rw [if_pos hr] at h
                         split at h
                         all_goals
                           try dsimp only at h
                           rw [hr] at h
                           simp at h
                     · next hr =>
                         rw [if_neg hr] at h
                         try dsimp only at h ⊢
                         rw [flattenFields_cons, fval_setVal, List.append_assoc]
                         rw [ihS _ (g :: fs) _ h]
                         exact ihP _ _ data (by simpa using hm))
      · intro t data h
        simp only [tableMatch] at h ⊢
        split at h
        next hr =>
          rw [hr] at h
          simp at h
        next hr =>
          split at h
          next heq =>
            dsimp only at h
            simp at h
          next heq =>
            rw [if_neg (by simpa using hr), if_neg heq]
            dsimp only
            show flattenT (TTable.mk _) ++ _ = data
            rw [flattenT]
            rw [mergeFields_flatten _ _ ?hlen]
            case hlen =>
              rw [seqMatch_length]
            exact ihS [] _ data (by simpa using hr)

/-- A field that `synthOKField` accepts and whose value participates in
synthesis is returned by `T3Field.get_value` as stored: either the value
is set (nonzero integer, table), or it is `NULL`-like with no binding. -/
theorem getVal_shortcut (t : TTable) (f : TField) (st : List Nat) (fuel : Nat)
    (hok : synthOKField f = true) (hnn : isNoneV (fval f) = false) :
    getVal t f st (fuel + 1) = .ok (fval f) := by
  cases f with
  | mk n p v b =>
    cases v with
    | vnone => simp [fval, isNoneV] at hnn
    | num bs =>
      simp only [synthOKField] at hok
      cases hz : (toIntB bs != 0)
      · rw [hz] at hok
        cases b with
        | some bb => simp at hok
        | none => simp [getVal, fval, valueIsSet, fbind, hz]
      · simp [getVal, fval, valueIsSet, hz]
    | tbl tt => simp [getVal, fval, valueIsSet]
    | lst vs => simp [synthOKField] at hok

/-- Membership version of `synthOKFields`. -/
theorem synthOKFields_mem {fs : List TField} {f : TField}
    (hm : f ∈ fs) (h : synthOKFields fs = true) : synthOKField f = true := by
  induction fs with
  | nil => cases hm
  | cons g gs ih =>
    rw [synthOKFields, Bool.and_eq_true] at h
    rcases List.mem_cons.mp hm with h1 | h1
    · exact h1 ▸ h.1
    · exact ih h1 h.2

/-- A member field's value height is bounded by the list height. -/
theorem hV_mem {fs : List TField} {f : TField} (hm : f ∈ fs) :
    hV (fval f) ≤ hFields fs := by
  induction fs with
  | nil => cases hm
  | cons g gs ih =>
    cases g with
    | mk n p v b =>
      rw [hFields]
      rcases List.mem_cons.mp hm with h1 | h1
      · subst h1
        exact Nat.le_max_left _ _
      · exact Nat.le_trans (ih h1) (Nat.le_max_right _ _)

/-- `filterMap id` undoes a `map some`. -/
theorem filterMap_id_map_some {α β : Type} (g : α → β) (l : List α) :
    (l.map (fun x => some (g x))).filterMap id = l.map g := by
  induction l with
  | nil => rfl
  | cons a l ih => simp [List.filterMap_cons, ih]

/-- Fields with value `None` contribute nothing, so flattening the
participating fields flattens the whole list. -/
theorem flatten_filter : ∀ fs : List TField,
    ((fs.filter (fun f => !(isNoneV (fval f)))).map
      (fun f => flattenVal (fval f))).flatten = flattenFields fs := by
  intro fs
  induction fs with
  | nil => rfl
  | cons f fs ihf =>
    rw [flattenFields_cons]
    cases hn : isNoneV (fval f)
    · rw [List.filter_cons_of_pos (by simp [hn]), List.map_cons,
        List.flatten_cons, ihf]
    · rw [List.filter_cons_of_neg (by simp [hn]), ihf, isNoneV_eq_vnone hn]
      rfl

/-- Reduction of an `Except` bind on a success value. -/
theorem bind_ok_eq {α β : Type} (a : α) (k : α → Except EvalErr β) :
    (Except.ok a >>= k) = k a := rfl

/-- `T3Table.get_value` on a table every one of whose fields passes
`synthOKField` concatenates the stored field values in order: no binding
fires and no field is recomputed. -/
theorem synthT_flatten : ∀ (fuel : Nat) (t : TTable),
    synthOKT t = true → 3 * hT t ≤ fuel → synthT t fuel = .ok (flattenT t) := by
  intro fuel
  induction fuel using Nat.strong_induction_on with
  | _ fuel ih =>
    intro t hok hfuel
    cases t with
    | mk fs =>
      have h3 : 3 ≤ fuel := by
        have h1 : 1 ≤ hT (TTable.mk fs) := by rw [hT]; omega
        omega
      obtain ⟨f3, rfl⟩ : ∃ g, fuel = g + 1 + 1 + 1 := ⟨fuel - 3, by omega⟩
      have hokf : synthOKFields fs = true := by rwa [synthOKT] at hok
      have hhf : 3 * (hFields fs + 1) ≤ f3 + 1 + 1 + 1 := by rwa [hT] at hfuel
      have e1 : (fs.filter (fun f => !(isNoneV (fval f)))).mapM
          (fun f => getVal (TTable.mk fs) f [] (f3 + 1 + 1)) =
          .ok ((fs.filter (fun f => !(isNoneV (fval f)))).map fval) := by
        apply mapM_ok
        intro f hf
        rw [List.mem_filter] at hf
        exact getVal_shortcut _ _ _ _ (synthOKFields_mem hf.1 hokf)
          (by simpa using hf.2)
      have e2 : ((fs.filter (fun f => !(isNoneV (fval f)))).map fval).mapM
          (fun v => gvBytes v (f3 + 1 + 1)) =
          .ok (((fs.filter (fun f => !(isNoneV (fval f)))).map fval).map
            (fun v => some (flattenVal v))) := by
        apply mapM_ok
        intro v hv
        rw [List.mem_map] at hv
        obtain ⟨f, hf, rfl⟩ := hv
        rw [List.mem_filter] at hf
        have hokF := synthOKFields_mem hf.1 hokf
        cases hval : fval f with
        | vnone => rw [hval] at hf; simp [isNoneV] at hf
        | num bs => rfl
        | lst vs =>
          exfalso
          cases f with
          | mk n p v b =>
            rw [fval] at hval
            subst hval
            simp [synthOKField] at hokF
        | tbl u =>
          have hok2 : synthOKT u = true := by
            cases f with
            | mk n p v b =>
              rw [fval] at hval
              subst hval
              simpa [synthOKField] using hokF
          have hle : hV (fval f) ≤ hFields fs := hV_mem hf.1
          rw [hval, hV] at hle
          have hfe : 3 * hT u ≤ f3 + 1 := by omega
          rw [show gvBytes (.tbl u) (f3 + 1 + 1) =
            (synthT u (f3 + 1) >>= fun bs => .ok (some bs)) from rfl]
          rw [ih (f3 + 1) (by omega) u hok2 hfe]
          rfl
      simp only [synthT, tfields]
      rw [e1, bind_ok_eq, e2, bind_ok_eq]
      rw [filterMap_id_map_some, List.map_map]
      show Except.ok (((fs.filter (fun f => !(isNoneV (fval f)))).map
        (fun f => flattenVal (fval f))).flatten) = _
      rw [flatten_filter]
      rfl

/-- The composite operation quantified over by the round-trip claim:
`T.match(data)` followed by `get_value` on the populated table value. -/
def matchSynth (t : TTable) (data : List Nat) (fuelA fuelB : Nat) :
    Except EvalErr (List Nat) :=
  match (tableMatch t data fuelA).value with
  | .tbl u => synthT u fuelB
  | _ => throw .typeErr

/-- Counterexample table for C1: field `A` is one byte and carries a
binding whose callback returns the byte length of field `B`; field `B`
is two plain bytes.  Both start out `NULL`, exactly as `T3Field`'s
default builds them. -/
def c1T : TTable :=
  TTable.mk
    [TField.mk "A" (some (.sec 1)) (.num [])
       (some (TBind.mk 0 (fun bs => [bs.length]) (some "B"))),
     TField.mk "B" (some (.sec 2)) (.num []) none]

/-- **C1, counterexample.**  The round trip fails on a bound field whose
matched value has integer 0: `c1T.match [0, 5, 6]` succeeds and consumes
the whole input, yet synthesizing the populated result recomputes field
`A` through its binding (`[0]` counts as unset, like `NULL`) and yields
`[2, 5, 6] ≠ [0, 5, 6]` — also under the code's own `==`. -/
theorem c1_counterexample :
    (tableMatch c1T [0, 5, 6] 9).fail = false ∧
    (tableMatch c1T [0, 5, 6] 9).rest = [] ∧
    matchSynth c1T [0, 5, 6] 9 9 = .ok [2, 5, 6] ∧
    eqPyB [2, 5, 6] [0, 5, 6] = false :=
  ⟨rfl, rfl, rfl, rfl⟩

/-- **C1, amended.**  The round trip does hold for tables that synthesize
from their stored values: if `t.match data` succeeds with empty
remainder and every field of the populated result passes
`synthOKField` — it is unbound, `None`-valued, a nested such table, or
its value has nonzero integer, so no binding recomputes it — then
`get_value` of the result returns exactly the consumed `data`. -/
theorem c1_amended (t u : TTable) (data : List Nat) (fuelA fuelB : Nat)
    (hfail : (tableMatch t data fuelA).fail = false)
    (hrest : (tableMatch t data fuelA).rest = [])
    (hval : (tableMatch t data fuelA).value = .tbl u)
    (hok : synthOKT u = true)
    (hfuel : 3 * hT u ≤ fuelB) :
    synthT u fuelB = .ok data := by
  have h := (match_flatten fuelA).2.2 t data hfail
  rw [hval, hrest, List.append_nil] at h
  rw [synthT_flatten fuelB u hok hfuel]
  exact congrArg Except.ok h

/-- **C1, witness.**  A two-field unbound table on `[1, 2, 3]`: the match
populates the copy with `[1]` and `[2, 3]`, and synthesis returns the
input. -/
theorem c1_amended_witness :
    synthT (TTable.mk [TField.mk "a" (some (.sec 1)) (.num [1]) none,
      TField.mk "b" (some (.sec 2)) (.num [2, 3]) none]) 6 = .ok [1, 2, 3] :=
  c1_amended
    (TTable.mk [TField.mk "a" (some (.sec 1)) (.num []) none,
      TField.mk "b" (some (.sec 2)) (.num []) none])
    (TTable.mk [TField.mk "a" (some (.sec 1)) (.num [1]) none,
      TField.mk "b" (some (.sec 2)) (.num [2, 3]) none])
    [1, 2, 3] 9 6 rfl rfl rfl rfl (by decide)

/-! ## Claim C9: matching never mutates the prototype (store model)

The pure matcher above cannot express mutation, so this claim gets a
store-passing model of the same code: every `T3Field.value` slot is a
heap cell addressed by a natural number, object allocation is a
watermark counter, and `T3Table.match` begins with `copy(self)` exactly
as the code does (`T3Table.__copy__` / `T3Field.__copy__`).  A field's
name, pattern and binding are immutable attributes of the field record;
the matcher assigns only `field.value`, i.e. writes heap cells. -/

mutual
/-- A runtime value in the store model (`T3Field.value` contents):
Python `None`, a number, a live (aliased) table object, or a list of
values. -/
inductive HVal where
  | vnone
  | num (bs : List Nat)
  | htbl (fs : List HFieldH)
  | hlst (vs : List HVal)
/-- A field object: name, pattern, the address of its mutable `value`
cell, and its binding (shared with copies, as in `T3Field.__copy__`). -/
inductive HFieldH where
  | mk (name : String) (pat : Option HPatH) (cell : Nat) (binding : Option TBind)
/-- Patterns over store-model tables: the same shapes as `HPat`, with
table patterns holding store-model fields. -/
inductive HPatH where
  | sec (k : Nat)
  | lit (bs : List Nat)
  | anyP
  | alt (ps : List HPatH)
  | prefixed (pfx : HPatH) (p : HPatH)
  | fnP (f : (String → Option (List Nat)) → List Nat → HPatH)
  | ptable (t : List HFieldH)
end

/-- Field name. -/
def hfName : HFieldH → String
  | .mk nm _ _ _ => nm

/-- Field pattern. -/
def hfPat : HFieldH → Option HPatH
  | .mk _ p _ _ => p

/-- Address of the field's `value` cell. -/
def hfCell : HFieldH → Nat
  | .mk _ _ c _ => c

/-- Field binding. -/
def hfBind : HFieldH → Option TBind
  | .mk _ _ _ b => b

/-- The store: cell address to current value. -/
def Heap : Type := Nat → HVal

/-- Heap write (`field.value = v`). -/
def hset (heap : Heap) (a : Nat) (v : HVal) : Heap :=
  fun b => if b = a then v else heap b

/-- `value is None` (the participation test `if field`). -/
def isNoneH : HVal → Bool
  | .vnone => true
  | _ => false

/-- `self.value not in (None, T3Number.NULL)` over store values. -/
def valueIsSetH : HVal → Bool
  | .vnone => false
  | .num bs => toIntB bs != 0
  | .htbl _ => true
  | .hlst _ => true

/-- Python `len` of a match value in the store model. -/
def hvalLen : HVal → Nat
  | .vnone => 0
  | .num bs => bs.length
  | .htbl fs => fs.length
  | .hlst vs => vs.length

/-- `T3Match` in the store model. -/
structure PMatchH where
  value : HVal
  rest : List Nat
  fail : Bool

mutual
/-- `T3Field.__copy__` in the store model: a `T3Table` or
`T3PatternPrefixed` pattern is copied recursively, every other pattern
is shared; the new field gets a fresh `value` cell initialized to the
source cell's current value; name and binding are shared.  Fuel-indexed
(`none` = fuel ran out). -/
def copyField (heap : Heap) (n : Nat) (f : HFieldH) :
    Nat → Option (Heap × Nat × HFieldH)
  | 0 => none
  | fuel + 1 =>
    match f with
    | .mk nm p c b =>
      match copyPatOpt heap n p fuel with
      | none => none
      | some r => some (hset r.1 r.2.1 (heap c), r.2.1 + 1, .mk nm r.2.2 r.2.1 b)
/-- Copy of an optional pattern. -/
def copyPatOpt (heap : Heap) (n : Nat) (p : Option HPatH) :
    Nat → Option (Heap × Nat × Option HPatH)
  | 0 => none
  | fuel + 1 =>
    match p with
    | none => some (heap, n, none)
    | some q =>
      match copyPat heap n q fuel with
      | none => none
      | some r => some (r.1, r.2.1, some r.2.2)
/-- The pattern part of `T3Field.__copy__`: table patterns are copied
field by field (`T3Table.__copy__`), a prefixed pattern shares its
prefix and copies its inner pattern (`T3PatternPrefixed.__copy__`), and
any other pattern object is shared (it has no value cells). -/
def copyPat (heap : Heap) (n : Nat) (p : HPatH) :
    Nat → Option (Heap × Nat × HPatH)
  | 0 => none
  | fuel + 1 =>
    match p with
    | .ptable fs =>
      match copyFieldsList heap n fs fuel with
      | none => none
      | some r => some (r.1, r.2.1, .ptable r.2.2)
    | .prefixed pfx q =>
      match copyPat heap n q fuel with
      | none => none
      | some r => some (r.1, r.2.1, .prefixed pfx r.2.2)
    | q => some (heap, n, q)
/-- `T3Table.__copy__`: copy the fields in order. -/
def copyFieldsList (heap : Heap) (n : Nat) (fs : List HFieldH) :
    Nat → Option (Heap × Nat × List HFieldH)
  | 0 => none
  | fuel + 1 =>
    match fs with
    | [] => some (heap, n, [])
    | f :: gs =>
      match copyField heap n f fuel with
      | none => none
      | some r =>
        match copyFieldsList r.1 r.2.1 gs fuel with
        | none => none
        | some s => some (s.1, s.2.1, r.2.2 :: s.2.2)
end

mutual
/-- `T3Field.get_value` reading the store (no writes: the function only
reads cells and computes bound values). -/
def getValH (heap : Heap) (t : List HFieldH) (f : HFieldH) (st : List Nat) :
    Nat → Except EvalErr HVal
  | 0 => throw .fuelOut
  | fuel + 1 =>
    if valueIsSetH (heap (hfCell f)) then .ok (heap (hfCell f))
    else
      match hfBind f with
      | some b =>
        if st.length > 10 && st.contains (bindId b) then throw .circular
        else do
          let bound ←
            match bindSrc b with
            | some nm =>
              if nm = "*" then computeRestH heap t (bindId b) (st ++ [bindId b]) fuel
              else getattrH heap t nm (st ++ [bindId b]) fuel
            | none => .ok (.htbl t)
          match bound with
          | .num bs => .ok (.num (bindCb b bs))
          | _ => throw .typeErr
      | none => .ok (heap (hfCell f))
/-- `T3Table.__getattr__` reading the store. -/
def getattrH (heap : Heap) (t : List HFieldH) (nm : String) (st : List Nat) :
    Nat → Except EvalErr HVal
  | 0 => throw .fuelOut
  | fuel + 1 =>
    match t.filter (fun f => hfName f == nm) with
    | [] => throw .typeErr
    | [f] => getValH heap t f st fuel
    | fs => do
      let vs ← fs.mapM (fun f => getValH heap t f st fuel)
      .ok (.hlst vs)
/-- `T3Binding._compute_rest` reading the store. -/
def computeRestH (heap : Heap) (t : List HFieldH) (bid : Nat) (st : List Nat) :
    Nat → Except EvalErr HVal
  | 0 => throw .fuelOut
  | fuel + 1 =>
    match t.findIdx? (fun f =>
        match hfBind f with
        | some b => bindId b == bid
        | none => false) with
    | none => .ok (.num [])
    | some i =>
      let after := t.drop (i + 1)
      if after.isEmpty then .ok (.num [])
      else do
        let vs ← after.mapM (fun g => getValH heap t g st fuel)
        let bss ← vs.mapM (fun v =>
          match v with
          | .num bs => Except.ok bs
          | _ => Except.error EvalErr.typeErr)
        .ok (.num bss.flatten)
end

/-- `T3PatternAlt.match` with the store threaded through the
alternatives (a failed table alternative has still copied and written
its own fresh cells). -/
def altRunH (matchOne : Heap → Nat → HPatH → (Heap × Nat × PMatchH))
    (data : List Nat) : Heap → Nat → List HPatH → (Heap × Nat × PMatchH)
  | heap, n, [] => (heap, n, ⟨.vnone, data, true⟩)
  | heap, n, p :: ps =>
    let r := matchOne heap n p
    if r.2.2.fail then altRunH matchOne data r.1 r.2.1 ps else r

/-- The `for k in range(len(data)-1, -1, -1)` search for an `Any` field
with successors, with the store threaded through the attempts: failed
attempts' writes to the later fields persist; on success the `Any`
field's cell receives `data[:k]` and the match value is the whole
data. -/
def anyScanH (attempt : Heap → Nat → List Nat → (Heap × Nat × PMatchH))
    (f : HFieldH) (data : List Nat) :
    Heap → Nat → Nat → (Heap × Nat × PMatchH)
  | heap, n, 0 => (heap, n, ⟨.vnone, data, true⟩)
  | heap, n, k + 1 =>
    let r := attempt heap n (data.drop k)
    if r.2.2.fail then anyScanH attempt f data r.1 r.2.1 k
    else (hset r.1 (hfCell f) (.num (data.take k)), r.2.1,
      { r.2.2 with value := .num data })

/-- `isinstance(P, T3PatternAny)`. -/
def isAnyH : HPatH → Bool
  | .anyP => true
  | _ => false

mutual
/-- `T3Pattern*.match` in the store model (same dispatch as
`hpatMatch`); only table patterns write, and they copy first. -/
def hpatMatchH (heap : Heap) (n : Nat) (view : String → Option (List Nat))
    (P : HPatH) (data : List Nat) : Nat → (Heap × Nat × PMatchH)
  | 0 => (heap, n, ⟨.vnone, data, true⟩)
  | fuel + 1 =>
    match P with
    | .sec k =>
      let v := data.take k
      if v.length == k then (heap, n, ⟨.num v, data.drop k, false⟩)
      else (heap, n, ⟨.vnone, data, true⟩)
    | .lit bs =>
      let k := bs.length
      if eqPyB (data.take k) bs then
        (heap, n, ⟨.num (data.take k), data.drop k, false⟩)
      else (heap, n, ⟨.vnone, data, true⟩)
    | .anyP => (heap, n, ⟨.num data, [], false⟩)
    | .alt ps => altRunH (fun h1 n1 p => hpatMatchH h1 n1 view p data fuel) data heap n ps
    | .prefixed pfx p =>
      let r := hpatMatchH heap n view pfx data fuel
      if r.2.2.fail then r else hpatMatchH r.1 r.2.1 view p data fuel
    | .fnP f => hpatMatchH heap n view (f view data) data fuel
    | .ptable t => tableMatchH heap n t data fuel
/-- `T3PatternTable.match` over the remaining fields, writing matched
values into the fields' cells (`field.value = ...`, pattern.py lines
99, 111 and 127); `tbl` is the containing (copied) table the `Function`
patterns read through `getattrH`. -/
def seqMatchH (heap : Heap) (n : Nat) (tbl : List HFieldH) (todo : List HFieldH)
    (data : List Nat) : Nat → (Heap × Nat × PMatchH)
  | 0 => (heap, n, ⟨.vnone, data, true⟩)
  | fuel + 1 =>
    match todo with
    | [] => (heap, n, ⟨.vnone, data, true⟩)
    | [f] =>
      match hfPat f with
      | none => (heap, n, ⟨.vnone, data, true⟩)
      | some P =>
        let view := fun nm =>
          match getattrH heap tbl nm [] fuel with
          | .ok (.num bs) => some bs
          | _ => none
        let r := hpatMatchH heap n view P data fuel
        if r.2.2.fail then r
        else (hset r.1 (hfCell f) r.2.2.value, r.2.1, r.2.2)
    | f :: g :: fs =>
      match hfPat f with
      | none => (heap, n, ⟨.vnone, data, true⟩)
      | some P =>
        if isAnyH P then
          anyScanH (fun h1 n1 d1 => seqMatchH h1 n1 tbl (g :: fs) d1 fuel) f data
            heap n data.length
        else
          let view := fun nm =>
            match getattrH heap tbl nm [] fuel with
            | .ok (.num bs) => some bs
            | _ => none
          let r := hpatMatchH heap n view P data fuel
          if r.2.2.fail then r
          else
            let h2 := hset r.1 (hfCell f) r.2.2.value
            let s := seqMatchH h2 r.2.1 tbl (g :: fs) r.2.2.rest fuel
            let resl := HVal.num (data.take (hvalLen r.2.2.value + hvalLen s.2.2.value))
            if s.2.2.fail then
              if isNoneH s.2.2.value then
                (s.1, s.2.1, { s.2.2 with value := r.2.2.value })
              else
                (s.1, s.2.1, { s.2.2 with value := resl })
            else
              (s.1, s.2.1, { s.2.2 with value := resl })
/-- `T3Table.match` in the store model: `table = copy(self)` allocates
fresh cells at the watermark, the participating fields of the *copy*
are matched (writes hit only the copy's cells), and on success the
match value is the live copy object. -/
def tableMatchH (heap : Heap) (n : Nat) (t : List HFieldH) (data : List Nat) :
    Nat → (Heap × Nat × PMatchH)
  | 0 => (heap, n, ⟨.vnone, data, true⟩)
  | fuel + 1 =>
    match copyFieldsList heap n t fuel with
    | none => (heap, n, ⟨.vnone, data, true⟩)
    | some r =>
      let flds := r.2.2.filter (fun f => !(isNoneH (r.1 (hfCell f))))
      let s := seqMatchH r.1 r.2.1 r.2.2 flds data fuel
      if s.2.2.fail then s
      else if eqPyB s.2.2.rest data then (s.1, s.2.1, { s.2.2 with fail := true })
      else (s.1, s.2.1, { s.2.2 with value := .htbl r.2.2 })
end

/-- Frame property of the copy: the watermark only grows, every write
targets a fresh cell (at or above the entry watermark), and every value
cell of the copied fields sits at or above the entry watermark. -/
theorem copy_frame : ∀ fuel : Nat,
    (∀ heap n f r, copyField heap n f fuel = some r →
      n ≤ r.2.1 ∧ n ≤ hfCell r.2.2 ∧ ∀ a, a < n → r.1 a = heap a) ∧
    (∀ heap n p r, copyPatOpt heap n p fuel = some r →
      n ≤ r.2.1 ∧ ∀ a, a < n → r.1 a = heap a) ∧
    (∀ heap n p r, copyPat heap n p fuel = some r →
      n ≤ r.2.1 ∧ ∀ a, a < n → r.1 a = heap a) ∧
    (∀ heap n fs r, copyFieldsList heap n fs fuel = some r →
      n ≤ r.2.1 ∧ (∀ g ∈ r.2.2, n ≤ hfCell g) ∧ ∀ a, a < n → r.1 a = heap a) := by
  intro fuel
  induction fuel with
  | zero =>
    refine ⟨?_, ?_, ?_, ?_⟩ <;> intro heap n x r h <;>
      simp [copyField, copyPatOpt, copyPat, copyFieldsList] at h
  | succ fuel ih =>
    obtain ⟨ihF, ihO, ihQ, ihL⟩ := ih
    refine ⟨?_, ?_, ?_, ?_⟩
    · intro heap n f r h
      cases f with
      | mk nm p c b =>
        simp only [copyField] at h
        cases hc : copyPatOpt heap n p fuel with
        | none => rw [hc] at h; simp at h
        | some q =>
          rw [hc] at h
          simp only [Option.some.injEq] at h
          subst h
          obtain ⟨h1, h2⟩ := ihO heap n p q hc
          refine ⟨?_, ?_, ?_⟩
          · show n ≤ q.2.1 + 1
            omega
          · show n ≤ q.2.1
            exact h1
          · intro a ha
            show hset q.1 q.2.1 (heap c) a = heap a
            rw [hset]
            rw [if_neg (by omega)]
            exact h2 a ha
    · intro heap n p r h
      cases p with
      | none =>
        simp only [copyPatOpt, Option.some.injEq] at h
        subst h
        exact ⟨Nat.le_refl n, fun a ha => rfl⟩
      | some q =>
        simp only [copyPatOpt] at h
        cases hc : copyPat heap n q fuel with
        | none => rw [hc] at h; simp at h
        | some s =>
          rw [hc] at h
          simp only [Option.some.injEq] at h
          subst h
          obtain ⟨h1, h2⟩ := ihQ heap n q s hc
          exact ⟨h1, h2⟩
    · intro heap n p r h
      cases p with
      | ptable fs =>
        simp only [copyPat] at h
        cases hc : copyFieldsList heap n fs fuel with
        | none => rw [hc] at h; simp at h
        | some s =>
          rw [hc] at h
          simp only [Option.some.injEq] at h
          subst h
          obtain ⟨h1, _, h3⟩ := ihL heap n fs s hc
          exact ⟨h1, h3⟩
      | prefixed pfx q =>
        simp only [copyPat] at h
        cases hc : copyPat heap n q fuel with
        | none => rw [hc] at h; simp at h
        | some s =>
          rw [hc] at h
          simp only [Option.some.injEq] at h
          subst h
          obtain ⟨h1, h2⟩ := ihQ heap n q s hc
          exact ⟨h1, h2⟩
      | sec k =>
        simp only [copyPat, Option.some.injEq] at h
        subst h
        exact ⟨Nat.le_refl n, fun a ha => rfl⟩
      | lit bs =>
        simp only [copyPat, Option.some.injEq] at h
        subst h
        exact ⟨Nat.le_refl n, fun a ha => rfl⟩
      | anyP =>
        simp only [copyPat, Option.some.injEq] at h
        subst h
        exact ⟨Nat.le_refl n, fun a ha => rfl⟩
      | alt ps =>
        simp only [copyPat, Option.some.injEq] at h
        subst h
        exact ⟨Nat.le_refl n, fun a ha => rfl⟩
      | fnP f =>
        simp only [copyPat, Option.some.injEq] at h
        subst h
        exact ⟨Nat.le_refl n, fun a ha => rfl⟩
    · intro heap n fs r h
      cases fs with
      | nil =>
        simp only [copyFieldsList, Option.some.injEq] at h
        subst h
        exact ⟨Nat.le_refl n, fun g hg => absurd hg (List.not_mem_nil g), fun a ha => rfl⟩
      | cons f gs =>
        simp only [copyFieldsList] at h
        cases hc : copyField heap n f fuel with
        | none => rw [hc] at h; simp at h
        | some q =>
          rw [hc] at h
          dsimp only at h
          cases hd : copyFieldsList q.1 q.2.1 gs fuel with
          | none => rw [hd] at h; simp at h
          | some s =>
            rw [hd] at h
            simp only [Option.some.injEq] at h
            subst h
            obtain ⟨h1, h2, h3⟩ := ihF heap n f q hc
            obtain ⟨h4, h5, h6⟩ := ihL q.1 q.2.1 gs s hd
            refine ⟨?_, ?_, ?_⟩
            · show n ≤ s.2.1
              omega
            · intro g hg
              rcases List.mem_cons.mp hg with h7 | h7
              · exact h7 ▸ h2
              · exact Nat.le_trans h1 (h5 g h7)
            · intro a ha
              show s.1 a = heap a
              rw [h6 a (by omega)]
              exact h3 a ha

/-- Frame property of the alternative loop, parametric in the
per-pattern matcher. -/
theorem altRunH_frame (matchOne : Heap → Nat → HPatH → (Heap × Nat × PMatchH))
    (data : List Nat)
    (hm : ∀ h1 n1 p, n1 ≤ (matchOne h1 n1 p).2.1 ∧
      ∀ a, a < n1 → (matchOne h1 n1 p).1 a = h1 a) :
    ∀ (ps : List HPatH) (heap : Heap) (n : Nat),
      n ≤ (altRunH matchOne data heap n ps).2.1 ∧
      ∀ a, a < n → (altRunH matchOne data heap n ps).1 a = heap a := by
  intro ps
  induction ps with
  | nil => intro heap n; exact ⟨Nat.le_refl n, fun a ha => rfl⟩
  | cons p ps ih =>
    intro heap n
    by_cases hf : (matchOne heap n p).2.2.fail = true
    · simp only [altRunH, if_pos hf]
      have h1 := hm heap n p
      have h2 := ih (matchOne heap n p).1 (matchOne heap n p).2.1
      refine ⟨Nat.le_trans h1.1 h2.1, fun a ha => ?_⟩
      rw [h2.2 a (Nat.lt_of_lt_of_le ha h1.1)]
      exact h1.2 a ha
    · simp only [altRunH, if_neg hf]
      exact hm heap n p

/-- Frame property of the `Any` scan, parametric in the attempt: the
attempt may write the cells in `C` (and fresh ones), the scan itself
additionally writes the `Any` field's own cell. -/
theorem anyScanH_frame (attempt : Heap → Nat → List Nat → (Heap × Nat × PMatchH))
    (f : HFieldH) (data : List Nat) (C : List Nat)
    (hm : ∀ h1 n1 d1, n1 ≤ (attempt h1 n1 d1).2.1 ∧
      ∀ a, a < n1 → a ∉ C → (attempt h1 n1 d1).1 a = h1 a) :
    ∀ (k : Nat) (heap : Heap) (n : Nat),
      n ≤ (anyScanH attempt f data heap n k).2.1 ∧
      ∀ a, a < n → a ∉ hfCell f :: C →
        (anyScanH attempt f data heap n k).1 a = heap a := by
  intro k
  induction k with
  | zero => intro heap n; exact ⟨Nat.le_refl n, fun a ha hc => rfl⟩
  | succ k ih =>
    intro heap n
    by_cases hf : (attempt heap n (data.drop k)).2.2.fail = true
    · simp only [anyScanH, if_pos hf]
      have h1 := hm heap n (data.drop k)
      have h2 := ih (attempt heap n (data.drop k)).1 (attempt heap n (data.drop k)).2.1
      refine ⟨Nat.le_trans h1.1 h2.1, fun a ha hc => ?_⟩
      rw [h2.2 a (Nat.lt_of_lt_of_le ha h1.1) hc]
      exact h1.2 a ha (fun hmem => hc (List.mem_cons_of_mem _ hmem))
    · simp only [anyScanH, if_neg hf]
      have h1 := hm heap n (data.drop k)
      refine ⟨h1.1, fun a ha hc => ?_⟩
      show hset _ (hfCell f) _ a = heap a
      rw [hset, if_neg (by intro he; exact hc (by rw [he]; exact List.mem_cons_self _ _))]
      exact h1.2 a ha (fun hmem => hc (List.mem_cons_of_mem _ hmem))

/-- Frame property of the store-model matcher: the watermark only grows;
`hpatMatchH` and `tableMatchH` never write below their entry watermark
(`T3Table.match` writes only into the copy it allocates); `seqMatchH`
writes below its entry watermark only to the value cells of the fields
it was given to match. -/
theorem matchH_frame : ∀ fuel : Nat,
    (∀ heap n view P data,
      n ≤ (hpatMatchH heap n view P data fuel).2.1 ∧
      ∀ a, a < n → (hpatMatchH heap n view P data fuel).1 a = heap a) ∧
    (∀ heap n tbl todo data,
      n ≤ (seqMatchH heap n tbl todo data fuel).2.1 ∧
      ∀ a, a < n → a ∉ todo.map hfCell →
        (seqMatchH heap n tbl todo data fuel).1 a = heap a) ∧
    (∀ heap n t data,
      n ≤ (tableMatchH heap n t data fuel).2.1 ∧
      ∀ a, a < n → (tableMatchH heap n t data fuel).1 a = heap a) := by
  intro fuel
  induction fuel with
  | zero =>
    refine ⟨?_, ?_, ?_⟩
    · intro heap n view P data
      exact ⟨Nat.le_refl n, fun a ha => rfl⟩
    · intro heap n tbl todo data
      exact ⟨Nat.le_refl n, fun a ha hc => rfl⟩
    · intro heap n t data
      exact ⟨Nat.le_refl n, fun a ha => rfl⟩
  | succ fuel ih =>
    obtain ⟨ihP, ihS, ihT⟩ := ih
    refine ⟨?_, ?_, ?_⟩
    · intro heap n view P data
      cases P with
      | sec k =>
        simp only [hpatMatchH]
        by_cases hl : ((data.take k).length == k) = true
        · rw [if_pos hl]; exact ⟨Nat.le_refl n, fun a ha => rfl⟩
        · rw [if_neg hl]; exact ⟨Nat.le_refl n, fun a ha => rfl⟩
      | lit bs =>
        simp only [hpatMatchH]
        by_cases hl : eqPyB (data.take bs.length) bs = true
        · rw [if_pos hl]; exact ⟨Nat.le_refl n, fun a ha => rfl⟩
        · rw [if_neg hl]; exact ⟨Nat.le_refl n, fun a ha => rfl⟩
      | anyP =>
        simp only [hpatMatchH]
        simp
      | alt ps =>
        simp only [hpatMatchH]
        exact altRunH_frame _ data (fun h1 n1 p => ihP h1 n1 view p data) ps heap n
      | prefixed pfx p =>
        simp only [hpatMatchH]
        by_cases hf : (hpatMatchH heap n view pfx data fuel).2.2.fail = true
        · rw [if_pos hf]
          exact ihP heap n view pfx data
        · rw [if_neg hf]
          have h1 := ihP heap n view pfx data
          have h2 := ihP (hpatMatchH heap n view pfx data fuel).1
            (hpatMatchH heap n view pfx data fuel).2.1 view p data
          refine ⟨Nat.le_trans h1.1 h2.1, fun a ha => ?_⟩
          rw [h2.2 a (Nat.lt_of_lt_of_le ha h1.1)]
          exact h1.2 a ha
      | fnP f =>
        simp only [hpatMatchH]
        exact ihP heap n view (f view data) data
      | ptable t =>
        simp only [hpatMatchH]
        exact ihT heap n t data
    · intro heap n tbl todo data
      match todo with
      | [] =>
        simp only [seqMatchH]
        simp
      | [f] =>
        simp only [seqMatchH]
        cases hp : hfPat f with
        | none =>
          simp only [hp]
          simp
        | some P =>
          simp only [hp]
          refine ⟨?_, ?_⟩
          · split
            · exact (ihP heap n _ P data).1
            · exact (ihP heap n _ P data).1
          · intro a ha hc
            have hne : ¬ a = hfCell f := by
              intro he
              exact hc (by rw [he]; exact List.mem_map_of_mem hfCell (List.mem_cons_self f []))
            split
            · exact (ihP heap n _ P data).2 a ha
            · show hset _ (hfCell f) _ a = heap a
              rw [hset, if_neg hne]
              exact (ihP heap n _ P data).2 a ha
      | f :: g :: fs =>
        simp only [seqMatchH]
        cases hp : hfPat f with
        | none =>
          simp only [hp]
          simp
        | some P =>
          simp only [hp]
          by_cases hA : isAnyH P = true
          · rw [if_pos hA]
            exact anyScanH_frame _ f data ((g :: fs).map hfCell)
              (fun h1 n1 d1 => ihS h1 n1 tbl (g :: fs) d1) data.length heap n
          · rw [if_neg hA]
            refine ⟨?_, ?_⟩
            · split <;> try split <;> try split
              all_goals first
                | exact (ihP heap n _ P data).1
                | exact Nat.le_trans (ihP heap n _ P data).1 (ihS _ _ tbl (g :: fs) _).1
            · intro a ha hc
              have hne : ¬ a = hfCell f := by
                intro he
                exact hc (by
                  rw [he]
                  exact List.mem_map_of_mem hfCell (List.mem_cons_self f (g :: fs)))
              have htl : a ∉ (g :: fs).map hfCell := by
                intro hm2
                apply hc
                rw [List.map_cons]
                exact List.mem_cons_of_mem _ hm2
              split <;> try split <;> try split
              all_goals first
                | exact (ihP heap n _ P data).2 a ha
                | exact ((ihS _ _ tbl (g :: fs) _).2 a
                    (Nat.lt_of_lt_of_le ha (ihP heap n _ P data).1) htl).trans
                    (by rw [hset, if_neg hne]; exact (ihP heap n _ P data).2 a ha)
    · intro heap n t data
      simp only [tableMatchH]
      cases hc : copyFieldsList heap n t fuel with
      | none =>
        simp only [hc]
        simp
      | some r =>
        simp only [hc]
        obtain ⟨hc1, hc2, hc3⟩ := (copy_frame fuel).2.2.2 heap n t r hc
        refine ⟨?_, ?_⟩
        · split <;> try split
          all_goals
            exact Nat.le_trans hc1 (ihS _ _ r.2.2 _ data).1
        · intro a ha
          have hfl : a ∉ (r.2.2.filter (fun f => !(isNoneH (r.1 (hfCell f))))).map hfCell := by
            intro hm2
            rw [List.mem_map] at hm2
            obtain ⟨g, hg, hga⟩ := hm2
            rw [List.mem_filter] at hg
            have hgc := hc2 g hg.1
            omega
          split <;> try split
          all_goals
            exact ((ihS _ _ r.2.2 _ data).2 a (Nat.lt_of_lt_of_le ha hc1) hfl).trans
              (hc3 a ha)

/-- **C9.**  `T3Table.match` never mutates the prototype.  In the store
model, `match` begins with `copy(self)` and every write of the whole
call (`field.value = ...` sites in `T3PatternTable.match`, and the
copies made by recursive `T3Table.match` calls) targets a cell
allocated at or above the entry watermark `n`.  Hence every cell that
exists before the call — in particular the `value` cell of each field
of the prototype and of every nested table reachable from it, all of
which lie below the watermark, while names, patterns and bindings are
immutable attributes of the field records — holds exactly the same
value after the call; matched values populate only the copy. -/
theorem c9_no_prototype_mutation (fuel : Nat) (heap : Heap) (n : Nat)
    (t : List HFieldH) (data : List Nat) (a : Nat) (ha : a < n) :
    (tableMatchH heap n t data fuel).1 a = heap a :=
  ((matchH_frame fuel).2.2 heap n t data).2 a ha

/-- **C9, witness.**  A two-field table whose cells are addresses `0`
and `1`, watermark `2`: matching `[1, 2, 3]` succeeds (it writes the
copy's cells `2` and `3`) and both prototype cells keep their values. -/
theorem c9_no_prototype_mutation_witness :
    (0 : Nat) < 2 ∧
    (tableMatchH (fun _ => HVal.num []) 2
      [HFieldH.mk "a" (some (.sec 1)) 0 none,
       HFieldH.mk "b" (some (.sec 2)) 1 none] [1, 2, 3] 9).1 0 =
      (fun _ => HVal.num []) 0 :=
  ⟨by decide,
    c9_no_prototype_mutation 9 (fun _ => HVal.num []) 2
      [HFieldH.mk "a" (some (.sec 1)) 0 none,
       HFieldH.mk "b" (some (.sec 2)) 1 none] [1, 2, 3] 0 (by decide)⟩
